import Mathlib

/-!
Verification of the structure-aware protobuf mutation engine
(src/protobuf_mutator.cc) against its natural-language specification.

The C++ source is shallowly embedded.  The pseudo-random engine is
modelled as a stream of uniform draw results: `RNG` holds a function
from draw positions to natural numbers together with the current
position; a uniform draw in `[0, n)` takes the next stream value
modulo `n`.  Quantifying over all streams covers every sequence of
draws the real generator can produce.

Machine integers are modelled by their little-endian byte
representation as natural numbers below `2 ^ width`; strings are lists
of byte values.  Loops of the C++ source whose iteration count is
bounded by a visible quantity (string length, distance to the size
hint, tree depth) are written as structural recursion on that bound so
that every definition computes by kernel reduction.
-/

namespace ProtyMut

/-- Stream-of-draws model of `ProtobufMutator::RandomEngine`: `gen i` is the
result of the `i`-th uniform draw, `pos` is the next unread position. -/
structure RNG where
  gen : Nat → Nat
  pos : Nat

/-- Consumes one draw from the stream. -/
def RNG.next (r : RNG) : Nat × RNG :=
  (r.gen r.pos, { r with pos := r.pos + 1 })

/-- Model of `GetRandomIndex` (protobuf_mutator.cc line 68): returns a uniform
integer from `[0, count)`.  `count == 1` returns `0` without consuming a draw,
matching the C++ early return; the (unreachable for `count = 0` under the
assertion modelled by `getRandomIndexChecked`) degenerate case also returns
`0` without a draw. -/
def getRandomIndex (r : RNG) (count : Nat) : Nat × RNG :=
  if count ≤ 1 then (0, r)
  else (r.next.1 % count, r.next.2)

/-- Model of `GetRandomIndex` together with its `assert(count > 0)`:
the call is invalid (returns `none`) when `count = 0`. -/
def getRandomIndexChecked (r : RNG) (count : Nat) : Option (Nat × RNG) :=
  if count = 0 then none else some (getRandomIndex r count)

/-- Model of `GetRandomBool` (line 75): true with probability about 1-of-n,
implemented as `GetRandomIndex(random, n) == 0`. -/
def getRandomBool (r : RNG) (n : Nat := 2) : Bool × RNG :=
  ((getRandomIndex r n).1 == 0, (getRandomIndex r n).2)

theorem getRandomIndex_lt (r : RNG) (count : Nat) (h : 0 < count) :
    (getRandomIndex r count).1 < count := by
  unfold getRandomIndex
  by_cases h1 : count ≤ 1
  · simp [h1]; omega
  · simp only [h1, if_false]
    exact Nat.mod_lt _ h

theorem getRandomIndex_pos_eq (r : RNG) (count : Nat) :
    getRandomIndex r count =
      if count ≤ 1 then (0, r) else ((r.gen r.pos) % count, r.next.2) := by
  unfold getRandomIndex RNG.next
  rfl

/-! ## Scalar mutators -/

/-- Model of the templated `FlipBit` (line 61) applied to an integer of
`size` bytes: a uniformly chosen bit of the little-endian byte representation
is flipped, which on the value representation (a natural number below
`2 ^ (8 * size)`) is an xor with a power of two. -/
def flipBitVal (size : Nat) (value : Nat) (r : RNG) : Nat × RNG :=
  let p := getRandomIndex r (size * 8)
  (value ^^^ (1 <<< p.1), p.2)

/-- Model of `ProtobufMutator::MutateInt32` (line 542): flips a random bit of
the 4-byte two's-complement representation. -/
def MutateInt32 (value : Nat) (r : RNG) : Nat × RNG := flipBitVal 4 value r

/-- Model of `ProtobufMutator::MutateInt64` (line 546). -/
def MutateInt64 (value : Nat) (r : RNG) : Nat × RNG := flipBitVal 8 value r

/-- Model of `ProtobufMutator::MutateUInt32` (line 550). -/
def MutateUInt32 (value : Nat) (r : RNG) : Nat × RNG := flipBitVal 4 value r

/-- Model of `ProtobufMutator::MutateUInt64` (line 554). -/
def MutateUInt64 (value : Nat) (r : RNG) : Nat × RNG := flipBitVal 8 value r

/-- Model of `ProtobufMutator::MutateBool` (line 566). -/
def MutateBool (value : Bool) : Bool := !value

/-- Model of `ProtobufMutator::MutateEnum` (line 568):
`(index + 1 + GetRandomIndex(random, item_count - 1)) % item_count`. -/
def MutateEnum (index item_count : Nat) (r : RNG) : Nat × RNG :=
  let p := getRandomIndex r (item_count - 1)
  ((index + 1 + p.1) % item_count, p.2)

/-- Model of `MutateEnum` together with the assertion inside its internal
`GetRandomIndex(random, item_count - 1)` call: `none` when that assertion
`count > 0` is violated. -/
def MutateEnumChecked (index item_count : Nat) (r : RNG) :
    Option (Nat × RNG) :=
  (getRandomIndexChecked r (item_count - 1)).map
    (fun p => ((index + 1 + p.1) % item_count, p.2))

/-! ## String mutator -/

/-- Model of the buffer overload of `FlipBit` (line 54) on a byte list:
draw `bit` uniformly from `[0, 8 * size)` and xor byte `bit / 8` with
`1 <<< (bit % 8)`. -/
def flipBitBuf (s : List Nat) (r : RNG) : List Nat × RNG :=
  let p := getRandomIndex r (s.length * 8)
  (s.modify (fun b => b ^^^ (1 <<< (p.1 % 8))) (p.1 / 8), p.2)

/-- Shrink loop of `MutateString` (line 576): while the buffer is non-empty
and a fair coin comes up heads, erase one uniformly chosen character.  Each
iteration removes exactly one character, so the loop runs at most `|s|`
times; `fuel` is that bound and is consumed in lock-step with the length,
making the recursion structural.  With `fuel = s.length` the definition is
exactly the C++ loop. -/
def shrinkGo : Nat → List Nat → RNG → List Nat × RNG
  | 0, s, r => (s, r)
  | fuel + 1, s, r =>
    if s.isEmpty then (s, r)
    else
      let c := getRandomBool r
      if c.1 then
        let p := getRandomIndex c.2 s.length
        shrinkGo fuel (s.eraseIdx p.1) p.2
      else (s, c.2)

/-- Grow loop of `MutateString` (line 580): while the size is below
`size_increase_hint` and a fair coin comes up heads, insert one uniformly
chosen byte at a uniformly chosen position.  Each iteration moves the length
one closer to the hint, so `hint - |s|` iterations suffice; `fuel` is that
bound.  With `fuel = hint - s.length` the definition is exactly the C++
loop. -/
def growGo (hint : Nat) : Nat → List Nat → RNG → List Nat × RNG
  | 0, s, r => (s, r)
  | fuel + 1, s, r =>
    if s.length < hint then
      let c := getRandomBool r
      if c.1 then
        let p := getRandomIndex c.2 (s.length + 1)
        let q := getRandomIndex p.2 (1 <<< 8)
        growGo hint fuel (s.insertIdx p.1 q.1) q.2
      else (s, c.2)
    else (s, r)

/-- Model of `ProtobufMutator::MutateString` (line 572): shrink phase, grow
phase, then a bit flip whenever the result is non-empty. -/
def MutateString (value : List Nat) (size_increase_hint : Nat) (r : RNG) :
    List Nat × RNG :=
  let p := shrinkGo value.length value r
  let q := growGo size_increase_hint (size_increase_hint - p.1.length) p.1 p.2
  if q.1.isEmpty then q
  else flipBitBuf q.1 q.2

/-! ## Constants and sampler weights -/

/-- Constant `kMaxInitializeDepth` (line 38). -/
def kMaxInitializeDepth : Nat := 32

/-- Constant `kDeletionThreshold` (line 39). -/
def kDeletionThreshold : Nat := 128

/-- Constant `kMutateWeight` (line 40). -/
def kMutateWeight : Nat := 1000000

/-- Weight adjustment performed by the `MutationSampler` constructor
(lines 126-138).  The C++ fields start as
`add_weight_ = delete_weight_ = kMutateWeight / 10 = 100000`; when
`size_increase_hint < kDeletionThreshold` it computes
`float adjustment = 0.5 * size_increase_hint / kDeletionThreshold` and scales
`add_weight_ *= adjustment`, `delete_weight_ *= 1 - adjustment` on the
`uint64_t` fields.  For `hint < 128` every floating-point step is exact:
`0.5 * hint / 128 = hint / 256` has at most 7 mantissa bits;
`1 - hint / 256 = (256 - hint) / 256` needs at most 9;
the products `100000 * hint / 256 = 3125 * hint / 8` and
`100000 * (256 - hint) / 256 = 3125 * (256 - hint) / 8` have odd parts below
`2 ^ 24`, hence are exact `float` values.  The assignment back to `uint64_t`
truncates toward zero, i.e. takes the floor, which on these non-negative
exact values is natural-number division by 256. -/
def adjustedWeights (size_increase_hint : Nat) : Nat × Nat :=
  if size_increase_hint < kDeletionThreshold then
    ((kMutateWeight / 10) * size_increase_hint / 256,
     (kMutateWeight / 10) * (256 - size_increase_hint) / 256)
  else (kMutateWeight / 10, kMutateWeight / 10)

/-! ## Arithmetic helper lemmas -/

theorem xor_pow_ne (v m : Nat) (hm : m ≠ 0) : v ^^^ m ≠ v := by
  intro h
  have h1 : v ^^^ (v ^^^ m) = v ^^^ v := by rw [h]
  rw [← Nat.xor_assoc, Nat.xor_self, Nat.zero_xor] at h1
  exact hm h1

theorem add_shift_mod_ne (index k count : Nat) (hi : index < count)
    (hk0 : 0 < k) (hk : k < count) : (index + k) % count ≠ index := by
  intro h
  rcases Nat.lt_or_ge (index + k) count with hlt | hge
  · rw [Nat.mod_eq_of_lt hlt] at h; omega
  · have h2 : (index + k) % count = index + k - count := by
      rw [Nat.mod_eq_sub_mod hge, Nat.mod_eq_of_lt (by omega)]
    omega

theorem flipBitVal_spec (size v : Nat) (r : RNG) (hs : 0 < size) :
    (∃ bit, bit < size * 8 ∧ (flipBitVal size v r).1 = v ^^^ 2 ^ bit) ∧
      (flipBitVal size v r).1 ≠ v := by
  have hbit : (getRandomIndex r (size * 8)).1 < size * 8 :=
    getRandomIndex_lt r (size * 8) (by omega)
  constructor
  · exact ⟨(getRandomIndex r (size * 8)).1, hbit, by
      simp [flipBitVal, Nat.shiftLeft_eq]⟩
  · show v ^^^ (1 <<< (getRandomIndex r (size * 8)).1) ≠ v
    rw [Nat.shiftLeft_eq, one_mul]
    exact xor_pow_ne v _ (by positivity)

/-! ## String mutator lemmas -/

theorem shrinkGo_eq_or_lt (fuel : Nat) : ∀ (s : List Nat) (r : RNG),
    (shrinkGo fuel s r).1 = s ∨ (shrinkGo fuel s r).1.length < s.length := by
  induction fuel with
  | zero => intro s r; left; rfl
  | succ n ih =>
    intro s r
    by_cases he : s.isEmpty
    · left; simp [shrinkGo, he]
    · have hs : 0 < s.length := by
        cases s with
        | nil => simp at he
        | cons a t => simp
      by_cases hc : ((getRandomBool r).1 : Bool)
      · have hi : (getRandomIndex (getRandomBool r).2 s.length).1 < s.length :=
          getRandomIndex_lt _ _ hs
        have hlen : (s.eraseIdx
            (getRandomIndex (getRandomBool r).2 s.length).1).length < s.length := by
          rw [List.length_eraseIdx]
          simp [hi]; omega
        rcases ih (s.eraseIdx (getRandomIndex (getRandomBool r).2 s.length).1)
            (getRandomIndex (getRandomBool r).2 s.length).2 with h | h
        · right; simp only [shrinkGo, he, hc]
          simp only [Bool.false_eq_true, if_false, if_true, h]
          omega
        · right; simp only [shrinkGo, he, hc]
          simp only [Bool.false_eq_true, if_false, if_true]
          omega
      · left; simp [shrinkGo, he, hc]

theorem shrinkGo_length_le (fuel : Nat) (s : List Nat) (r : RNG) :
    (shrinkGo fuel s r).1.length ≤ s.length := by
  rcases shrinkGo_eq_or_lt fuel s r with h | h
  · rw [h]
  · omega

theorem growGo_length_le (hint : Nat) (fuel : Nat) :
    ∀ (s : List Nat) (r : RNG),
      (growGo hint fuel s r).1.length ≤ max s.length hint := by
  induction fuel with
  | zero => intro s r; exact Nat.le_max_left _ _
  | succ n ih =>
    intro s r
    by_cases hlt : s.length < hint
    · by_cases hc : ((getRandomBool r).1 : Bool)
      · simp only [growGo, hlt, hc, if_true]
        set p := getRandomIndex (getRandomBool r).2 (s.length + 1)
        set q := getRandomIndex p.2 (1 <<< 8)
        have hp1 : p.1 < s.length + 1 := getRandomIndex_lt _ _ (by omega)
        have hins : (s.insertIdx p.1 q.1).length = s.length + 1 := by
          apply List.length_insertIdx
          omega
        have := ih (s.insertIdx p.1 q.1) q.2
        rw [hins] at this
        have hle : max (s.length + 1) hint = hint := by omega
        rw [hle] at this
        omega
      · simp only [growGo, hlt, hc]
        simp only [Bool.false_eq_true, if_false, if_true]
        exact Nat.le_max_left _ _
    · simp only [growGo, hlt, if_false]
      exact Nat.le_max_left _ _

theorem flipBitBuf_length (s : List Nat) (r : RNG) :
    (flipBitBuf s r).1.length = s.length := by
  simp [flipBitBuf, List.length_modify]

theorem flipBitBuf_ne (s : List Nat) (r : RNG) (hs : s ≠ []) :
    (flipBitBuf s r).1 ≠ s := by
  have hlen : 0 < s.length := List.length_pos.mpr hs
  have hbit : (getRandomIndex r (s.length * 8)).1 < s.length * 8 :=
    getRandomIndex_lt _ _ (by omega)
  set bit := (getRandomIndex r (s.length * 8)).1 with hbitdef
  have hidx : bit / 8 < s.length := by omega
  intro h
  have h2 := congrArg (fun l => l[bit / 8]?) h
  simp only [flipBitBuf] at h2
  rw [List.getElem?_modify] at h2
  simp only [if_pos rfl] at h2
  rw [List.getElem?_eq_getElem hidx] at h2
  simp only [Option.map_some] at h2  -- f <$> some a = some (f a)
  have h3 : s[bit / 8] ^^^ (1 <<< (bit % 8)) = s[bit / 8] :=
    Option.some.inj h2
  exact xor_pow_ne _ _ (by
    rw [Nat.shiftLeft_eq, one_mul]
    positivity) h3

/-! ## Claims about the scalar mutators, the string mutator and the weights -/

/-- C1: for every enum value with `count ≥ 2` and `index < count`,
`MutateEnum(index, count)` returns
`(index + 1 + uniform_index(count - 1)) % count`; the result differs from
`index` and lies in `[0, count)`. -/
theorem mutateEnum_changes (index count : Nat) (r : RNG)
    (hc : 2 ≤ count) (hi : index < count) :
    (MutateEnum index count r).1 =
        (index + 1 + (getRandomIndex r (count - 1)).1) % count ∧
      (getRandomIndex r (count - 1)).1 < count - 1 ∧
      (MutateEnum index count r).1 < count ∧
      (MutateEnum index count r).1 ≠ index := by
  have hd : (getRandomIndex r (count - 1)).1 < count - 1 :=
    getRandomIndex_lt _ _ (by omega)
  refine ⟨rfl, hd, Nat.mod_lt _ (by omega), ?_⟩
  show (index + 1 + (getRandomIndex r (count - 1)).1) % count ≠ index
  rw [Nat.add_assoc]
  exact add_shift_mod_ne index _ count hi (by omega) (by omega)

/-- C1 witness: `mutate_enum(3, 4)` with the draw stream producing
`uniform_index(3) = 2` returns `(3 + 1 + 2) % 4 = 2 ≠ 3`. -/
theorem mutateEnum_changes_witness :
    (MutateEnum 3 4 ⟨fun _ => 2, 0⟩).1 < 4 ∧
      (MutateEnum 3 4 ⟨fun _ => 2, 0⟩).1 ≠ 3 ∧
      (MutateEnum 3 4 ⟨fun _ => 2, 0⟩).1 = 2 :=
  ⟨(mutateEnum_changes 3 4 ⟨fun _ => 2, 0⟩ (by decide) (by decide)).2.2.1,
   (mutateEnum_changes 3 4 ⟨fun _ => 2, 0⟩ (by decide) (by decide)).2.2.2,
   by decide⟩

/-- C10: `MutateEnum(index, item_count)` requires `item_count ≥ 2`: at
`item_count = 1` the internal `GetRandomIndex(random, item_count - 1)`
violates its assertion `count > 0` (the checked model returns `none`), while
for `item_count ≥ 2` the assertion holds and the checked model agrees with
the unchecked one. -/
theorem mutateEnum_assertion (index count : Nat) (r : RNG) (h2 : 2 ≤ count) :
    (∀ (i : Nat) (r0 : RNG), MutateEnumChecked i 1 r0 = none) ∧
      MutateEnumChecked index count r = some (MutateEnum index count r) := by
  constructor
  · intro i r0
    simp [MutateEnumChecked, getRandomIndexChecked]
  · have hne : count - 1 ≠ 0 := by omega
    simp [MutateEnumChecked, getRandomIndexChecked, hne, MutateEnum]

/-- C10 witness at `index = 0`, `count = 4` and a constant draw stream. -/
theorem mutateEnum_assertion_witness :
    MutateEnumChecked 0 1 ⟨fun _ => 0, 0⟩ = none ∧
      MutateEnumChecked 0 4 ⟨fun _ => 0, 0⟩ =
        some (MutateEnum 0 4 ⟨fun _ => 0, 0⟩) :=
  ⟨(mutateEnum_assertion 0 4 ⟨fun _ => 0, 0⟩ (by decide)).1 0 ⟨fun _ => 0, 0⟩,
   (mutateEnum_assertion 0 4 ⟨fun _ => 0, 0⟩ (by decide)).2⟩

/-- C8: each of `MutateInt32`, `MutateInt64`, `MutateUInt32`, `MutateUInt64`
flips exactly one bit of the value's byte representation, hence never returns
its argument; a `w`-bit representation stays below `2 ^ w`. -/
theorem mutateInt_flips_one_bit (v : Nat) (r : RNG) :
    ((∃ bit, bit < 32 ∧ (MutateInt32 v r).1 = v ^^^ 2 ^ bit) ∧
        (MutateInt32 v r).1 ≠ v ∧
        (v < 2 ^ 32 → (MutateInt32 v r).1 < 2 ^ 32)) ∧
      ((∃ bit, bit < 64 ∧ (MutateInt64 v r).1 = v ^^^ 2 ^ bit) ∧
        (MutateInt64 v r).1 ≠ v ∧
        (v < 2 ^ 64 → (MutateInt64 v r).1 < 2 ^ 64)) ∧
      MutateUInt32 v r = MutateInt32 v r ∧
      MutateUInt64 v r = MutateInt64 v r := by
  have h32 := flipBitVal_spec 4 v r (by omega)
  have h64 := flipBitVal_spec 8 v r (by omega)
  refine ⟨⟨?_, h32.2, ?_⟩, ⟨?_, h64.2, ?_⟩, rfl, rfl⟩
  · obtain ⟨bit, hb, he⟩ := h32.1
    exact ⟨bit, by omega, he⟩
  · intro hv
    obtain ⟨bit, hb, he⟩ := h32.1
    rw [show (MutateInt32 v r) = flipBitVal 4 v r from rfl, he]
    exact Nat.xor_lt_two_pow hv (Nat.pow_lt_pow_right (by omega) (by omega))
  · obtain ⟨bit, hb, he⟩ := h64.1
    exact ⟨bit, by omega, he⟩
  · intro hv
    obtain ⟨bit, hb, he⟩ := h64.1
    rw [show (MutateInt64 v r) = flipBitVal 8 v r from rfl, he]
    exact Nat.xor_lt_two_pow hv (Nat.pow_lt_pow_right (by omega) (by omega))

/-- C8 witness at `v = 0` with a constant draw stream. -/
theorem mutateInt_flips_one_bit_witness :
    (MutateInt32 0 ⟨fun _ => 0, 0⟩).1 ≠ 0 ∧
      (0 < 2 ^ 32 → (MutateInt32 0 ⟨fun _ => 0, 0⟩).1 < 2 ^ 32) :=
  ⟨(mutateInt_flips_one_bit 0 ⟨fun _ => 0, 0⟩).1.2.1,
   (mutateInt_flips_one_bit 0 ⟨fun _ => 0, 0⟩).1.2.2⟩

/-- C5: for every non-empty byte string `v` and every draw stream,
`MutateString(v, 0)` differs from `v`: either the shrink phase removed a byte
(so the lengths differ) or the final bit flip changed one bit. -/
theorem mutateString_hint0_changes (v : List Nat) (r : RNG) (hv : v ≠ []) :
    (MutateString v 0 r).1 ≠ v := by
  unfold MutateString
  rcases shrinkGo_eq_or_lt v.length v r with h | h
  · -- no byte was erased: the final bit flip changes the string
    simp only [Nat.zero_sub, growGo, h]
    have hne : (v.isEmpty : Bool) = false := by
      cases v with
      | nil => exact absurd rfl hv
      | cons a t => rfl
    simp only [hne, Bool.false_eq_true, if_false]
    exact flipBitBuf_ne v _ hv
  · -- a byte was erased and the hint is 0: the length shrank for good
    simp only [Nat.zero_sub, growGo]
    set s1 := (shrinkGo v.length v r).1 with hs1
    by_cases he : s1.isEmpty
    · simp only [he, if_true]
      intro hcon
      rw [hcon] at h
      omega
    · simp only [he, Bool.false_eq_true, if_false]
      intro hcon
      have := congrArg List.length hcon
      rw [flipBitBuf_length] at this
      omega

/-- C5 witness on the string "hi" with a draw stream whose first coin is
tails. -/
theorem mutateString_hint0_changes_witness :
    (MutateString [104, 105] 0 ⟨fun _ => 1, 0⟩).1 ≠ [104, 105] :=
  mutateString_hint0_changes [104, 105] ⟨fun _ => 1, 0⟩ (by decide)

/-- C9: for every string, hint and draw stream, `MutateString` (a total
function in this model: both loops are bounded, the shrink loop by the
string length and the grow loop by the distance to the hint) returns a
string of length at most `max |v| hint`. -/
theorem mutateString_length_le (v : List Nat) (hint : Nat) (r : RNG) :
    (MutateString v hint r).1.length ≤ max v.length hint := by
  have h1 : (shrinkGo v.length v r).1.length ≤ v.length :=
    shrinkGo_length_le _ _ _
  simp only [MutateString]
  revert h1
  generalize shrinkGo v.length v r = p
  intro h1
  have h2 : (growGo hint (hint - p.1.length) p.1 p.2).1.length ≤
      max p.1.length hint := growGo_length_le _ _ _ _
  revert h2
  generalize growGo hint (hint - p.1.length) p.1 p.2 = q
  intro h2
  by_cases he : q.1.isEmpty
  · rw [if_pos he]
    omega
  · rw [if_neg (by simpa using he)]
    rw [flipBitBuf_length]
    omega

/-- C7 counterexample: at `size_hint = 1` the claim's exact values
`add_weight = 10^5 · a` with `a = 0.5 · 1 / 128 = 1/256` would be
`390.625`, but the `uint64_t` field holds `390`. -/
theorem adjustedWeights_not_exact :
    ¬ (((adjustedWeights 1).1 : ℚ) =
        10 ^ 5 * ((1 : ℚ) / 2 * 1 / 128)) := by
  norm_num [adjustedWeights, kMutateWeight, kDeletionThreshold]

/-- C7 (amended): `mutate_weight = 10^6`, base
`add_weight = delete_weight = 10^5`; for `size_hint ≥ 128` the base weights
are unchanged, and for `size_hint < 128`, with `a = 0.5 · size_hint / 128`,
the stored weights are the floors `⌊10^5 · a⌋` and `⌊10^5 · (1 - a)⌋`
(the float products are exact and the store into `uint64_t` truncates). -/
theorem adjustedWeights_spec (h : Nat) :
    kMutateWeight = 10 ^ 6 ∧
      kMutateWeight / 10 = 10 ^ 5 ∧
      (kDeletionThreshold ≤ h → adjustedWeights h = (10 ^ 5, 10 ^ 5)) ∧
      (h < kDeletionThreshold →
        ((adjustedWeights h).1 : ℤ) =
            ⌊(10 ^ 5 : ℚ) * ((1 : ℚ) / 2 * h / 128)⌋ ∧
          ((adjustedWeights h).2 : ℤ) =
            ⌊(10 ^ 5 : ℚ) * (1 - (1 : ℚ) / 2 * h / 128)⌋) := by
  refine ⟨rfl, rfl, ?_, ?_⟩
  · intro hge
    simp only [adjustedWeights, kDeletionThreshold] at *
    rw [if_neg (by omega)]
    rfl
  · intro hlt
    have hlt' : h < 128 := by
      simpa [kDeletionThreshold] using hlt
    constructor
    · have he : (10 ^ 5 : ℚ) * ((1 : ℚ) / 2 * h / 128) =
          ((10 ^ 5 * h : ℕ) : ℚ) / ((256 : ℕ) : ℚ) := by
        push_cast
        ring
      rw [he, Rat.floor_natCast_div_natCast]
      simp only [adjustedWeights, kMutateWeight, kDeletionThreshold,
        if_pos hlt']
      norm_num
    · have he : (10 ^ 5 : ℚ) * (1 - (1 : ℚ) / 2 * h / 128) =
          ((10 ^ 5 * (256 - h) : ℕ) : ℚ) / ((256 : ℕ) : ℚ) := by
        have hc : ((256 - h : ℕ) : ℚ) = 256 - (h : ℚ) := by
          push_cast [Nat.cast_sub (by omega : h ≤ 256)]
          ring
        push_cast [hc]
        ring
      rw [he, Rat.floor_natCast_div_natCast]
      simp only [adjustedWeights, kMutateWeight, kDeletionThreshold,
        if_pos hlt']
      norm_num

/-- C7 witness: the amended claim evaluated at `size_hint = 1` and
`size_hint = 128`. -/
theorem adjustedWeights_spec_witness :
    (128 ≤ 128 → adjustedWeights 128 = (10 ^ 5, 10 ^ 5)) ∧
      (1 < 128 →
        ((adjustedWeights 1).1 : ℤ) =
            ⌊(10 ^ 5 : ℚ) * ((1 : ℚ) / 2 * 1 / 128)⌋ ∧
          ((adjustedWeights 1).2 : ℤ) =
            ⌊(10 ^ 5 : ℚ) * (1 - (1 : ℚ) / 2 * 1 / 128)⌋) :=
  ⟨(adjustedWeights_spec 128).2.2.1, (adjustedWeights_spec 1).2.2.2⟩

/-! ## Message data model

Schema-described messages, modelling the part of the protobuf
descriptor/reflection collaborator the mutator uses (spec section 6):
ordered field descriptors with a primitive-type tag, a cardinality label,
optional membership in a oneof group, and the referenced enum or message
type; messages with presence, size, typed read/write, insertion/removal and
oneof resolution.  Enum and message types are identified by indices,
message-type indices point into a `Schema` (a table of message
descriptors), which admits recursive schemas. -/

/-- Primitive-type tag of a field (`FieldDescriptor::cpp_type()` plus the
referenced enum/message type where the data-source matching needs it).
Enum values carry their `count` in the descriptor. -/
inductive FType where
  | fInt32
  | fInt64
  | fUInt32
  | fUInt64
  | fBool
  | fEnum (etype : Nat) (count : Nat)
  | fString
  | fMsg (mref : Nat)
deriving DecidableEq, Repr

/-- Field cardinality. -/
inductive Label where
  | optional
  | required
  | repeated
deriving DecidableEq, Repr

/-- Field descriptor: type tag, label, and oneof membership. -/
structure FieldDescr where
  ftype : FType
  label : Label
  oneof : Option Nat := none
deriving DecidableEq, Repr

instance : Inhabited FieldDescr := ⟨⟨FType.fInt32, Label.optional, none⟩⟩

/-- Descriptor of one message type: its ordered field descriptors. -/
abbrev MsgDescr := List FieldDescr

/-- Schema: table of message descriptors referenced by `FType.fMsg`. -/
abbrev Schema := List MsgDescr

/-- Scalar payloads.  Integer payloads are byte representations (naturals
below `2 ^ width`); strings are byte lists; enums are the value index. -/
inductive SVal where
  | vInt32 (v : Nat)
  | vInt64 (v : Nat)
  | vUInt32 (v : Nat)
  | vUInt64 (v : Nat)
  | vBool (v : Bool)
  | vEnum (idx : Nat)
  | vString (s : List Nat)
deriving DecidableEq, Repr

/-- Value slot of one field inside a message: singular scalar (present or
not), repeated scalar, singular sub-message (present or not), repeated
sub-message.  A message is its ordered list of slots. -/
inductive FieldVal where
  | sOpt (v : Option SVal)
  | sRep (vs : List SVal)
  | mOpt (v : Option (List FieldVal))
  | mRep (vs : List (List FieldVal))
deriving Repr

/-- Message value: one slot per descriptor field. -/
abbrev PMessage := List FieldVal

instance : Inhabited FieldVal := ⟨FieldVal.sOpt none⟩

/-- Presence of a singular slot (`Reflection::HasField`). -/
def FieldVal.isSet : FieldVal → Bool
  | .sOpt (some _) => true
  | .mOpt (some _) => true
  | _ => false

/-- Scalar elements of a repeated slot. -/
def FieldVal.sElems : FieldVal → List SVal
  | .sRep vs => vs
  | _ => []

/-- Message elements of a repeated slot. -/
def FieldVal.mElems : FieldVal → List PMessage
  | .mRep vs => vs
  | _ => []

/-- Size of a repeated slot (`Reflection::FieldSize`). -/
def FieldVal.rsize : FieldVal → Nat
  | .sRep vs => vs.length
  | .mRep vs => vs.length
  | _ => 0

/-- Present singular sub-message of a slot, if any. -/
def FieldVal.subMsg : FieldVal → Option PMessage
  | .mOpt v => v
  | _ => none

/-- Tests whether a type tag is the sub-message tag
(`cpp_type() == CPPTYPE_MESSAGE`). -/
def FType.isMsg : FType → Bool
  | .fMsg _ => true
  | _ => false

/-- Schema default of a scalar type (`FieldInstance::GetDefault` for
non-message types): zero, false, enum index 0, empty string. -/
def defaultSVal : FType → SVal
  | .fInt32 => .vInt32 0
  | .fInt64 => .vInt64 0
  | .fUInt32 => .vUInt32 0
  | .fUInt64 => .vUInt64 0
  | .fBool => .vBool false
  | .fEnum _ _ => .vEnum 0
  | .fString => .vString []
  | .fMsg _ => .vInt32 0  -- unreachable: message defaults come from emptyMessage

/-- Freshly constructed message of a descriptor: every slot unset or
empty (`Message::New`, used as the default of a message-typed field). -/
def emptyMessage (d : MsgDescr) : PMessage :=
  d.map fun fd =>
    match fd.label, fd.ftype with
    | .repeated, .fMsg _ => .mRep []
    | .repeated, _ => .sRep []
    | _, .fMsg _ => .mOpt none
    | _, _ => .sOpt none

/-- Member field indices of oneof group `g` in declaration order
(`OneofDescriptor::field`). -/
def oneofMembers (d : MsgDescr) (g : Nat) : List Nat :=
  (List.range d.length).filter fun i => (d.getD i default).oneof = some g

/-- Currently set member of oneof group `g`
(`Reflection::GetOneofFieldDescriptor`); the model returns the first set
member, which is the set member under the at-most-one-set invariant. -/
def setOneofMember (d : MsgDescr) (m : PMessage) (g : Nat) : Option Nat :=
  (oneofMembers d g).find? fun i => (m.getD i default).isSet

/-- Model of `Message::IsInitialized`: every required field is set and
every present sub-message is transitively initialized.  `fuel` bounds the
recursion depth; it exceeds the height of every message this development
evaluates. -/
def msgInitialized : Nat → Schema → MsgDescr → PMessage → Bool
  | 0, _, _, _ => true
  | fuel + 1, s, d, m =>
    (List.range d.length).all fun i =>
      let fd := d.getD i default
      let fv := m.getD i default
      (if fd.label = .required then fv.isSet else true) &&
        (match fd.ftype with
         | .fMsg mref =>
           let d2 := s.getD mref []
           (match fv.subMsg with
            | some sub => msgInitialized fuel s d2 sub
            | none => true) &&
             (fv.mElems.all fun sub => msgInitialized fuel s d2 sub)
         | _ => true)

/-! ## Field handles (sites) and typed field operations

The concrete `FieldInstance`/`ConstFieldInstance` classes live in
src/field_instance.h, which is not part of the sources here; the operations
below are modelled from the spec, section 4.3 ("Field handle and type
dispatch"): `get_default`, `load`, `store` (writes into an existing slot),
`create` (repeated: insert at index; optional: set; oneof member: set this
member and clear its siblings), `delete` (repeated: remove at index;
otherwise clear presence).  A field instance `(message, descriptor, index)`
is identified here by the path of the owning message from the root, the
field's position and descriptor, and the optional repeated index. -/

/-- Step from a message to a sub-message: field index plus element index
for repeated fields. -/
structure PathStep where
  field : Nat
  elem : Option Nat
deriving DecidableEq, Repr

/-- Field instance: owning message (as a path from the root), field
position, field descriptor, optional repeated index. -/
structure Site where
  path : List PathStep
  field : Nat
  fd : FieldDescr
  index : Option Nat
deriving Repr

/-- Loaded field value: scalar payload or sub-message. -/
inductive LoadVal where
  | scalar (v : SVal)
  | msg (m : PMessage)
deriving Repr

/-- Descends one path step. -/
def stepInto (m : PMessage) (st : PathStep) : Option PMessage :=
  let fv := m.getD st.field default
  match st.elem with
  | none => fv.subMsg
  | some j => fv.mElems[j]?

/-- Message at the end of a path. -/
def msgAtPath : PMessage → List PathStep → Option PMessage
  | m, [] => some m
  | m, st :: p =>
    match stepInto m st with
    | some sub => msgAtPath sub p
    | none => none

/-- Descriptor of the message at the end of a path. -/
def descrAtPath : Schema → MsgDescr → List PathStep → MsgDescr
  | _, d, [] => d
  | s, d, st :: p =>
    match (d.getD st.field default).ftype with
    | .fMsg mref => descrAtPath s (s.getD mref []) p
    | _ => []

/-- Rewrites the message at the end of a path through `f`; an invalid path
leaves the message unchanged. -/
def updAtPath : PMessage → List PathStep → (PMessage → PMessage) → PMessage
  | m, [], f => f m
  | m, st :: p, f =>
    m.set st.field
      (match st.elem, m.getD st.field default with
       | none, .mOpt (some sub) => .mOpt (some (updAtPath sub p f))
       | some j, .mRep vs => .mRep (vs.modify (fun sub => updAtPath sub p f) j)
       | _, fv => fv)

/-- Clears presence of a singular slot. -/
def clearSlot : FieldVal → FieldVal
  | .sOpt _ => .sOpt none
  | .mOpt _ => .mOpt none
  | fv => fv

/-- Clears every member of oneof group `g` except `keep` (protobuf setters
clear the previously active member of the group). -/
def clearOneofSiblings (d : MsgDescr) (m : PMessage) (g : Nat) (keep : Nat) :
    PMessage :=
  m.mapIdx fun i fv =>
    if i ≠ keep ∧ (d.getD i default).oneof = some g then clearSlot fv else fv

/-- Store into a slot: singular slots gain presence, repeated slots
overwrite the element at the index. -/
def storeSlot (idx : Option Nat) (v : LoadVal) (fv : FieldVal) : FieldVal :=
  match idx, v, fv with
  | none, .scalar sv, .sOpt _ => .sOpt (some sv)
  | none, .msg sub, .mOpt _ => .mOpt (some sub)
  | some j, .scalar sv, .sRep vs => .sRep (vs.set j sv)
  | some j, .msg sub, .mRep vs => .mRep (vs.set j sub)
  | _, _, fv => fv

/-- Create in a slot: singular slots gain presence, repeated slots insert
at the index, shifting the tail. -/
def createSlot (idx : Option Nat) (v : LoadVal) (fv : FieldVal) : FieldVal :=
  match idx, v, fv with
  | none, .scalar sv, .sOpt _ => .sOpt (some sv)
  | none, .msg sub, .mOpt _ => .mOpt (some sub)
  | some j, .scalar sv, .sRep vs => .sRep (vs.insertIdx j sv)
  | some j, .msg sub, .mRep vs => .mRep (vs.insertIdx j sub)
  | _, _, fv => fv

/-- Delete from a slot: repeated slots remove the element at the index,
singular slots lose presence. -/
def deleteSlot (idx : Option Nat) (fv : FieldVal) : FieldVal :=
  match idx, fv with
  | none, fv => clearSlot fv
  | some j, .sRep vs => .sRep (vs.eraseIdx j)
  | some j, .mRep vs => .mRep (vs.eraseIdx j)
  | some _, fv => fv

/-- Load from a slot; unset singular fields yield the schema default, as
protobuf getters do. -/
def loadSlot (s : Schema) (fd : FieldDescr) (idx : Option Nat)
    (fv : FieldVal) : LoadVal :=
  let msgDefault : PMessage :=
    match fd.ftype with
    | .fMsg mref => emptyMessage (s.getD mref [])
    | _ => []
  match idx, fv with
  | none, .sOpt (some sv) => .scalar sv
  | none, .sOpt none => .scalar (defaultSVal fd.ftype)
  | none, .mOpt (some sub) => .msg sub
  | none, .mOpt none => .msg msgDefault
  | some j, .sRep vs => .scalar (vs.getD j (defaultSVal fd.ftype))
  | some j, .mRep vs => .msg (vs.getD j msgDefault)
  | _, _ => .scalar (defaultSVal fd.ftype)

/-- Store into a message's direct field `i`, clearing oneof siblings when
the field is a oneof member. -/
def storeAtMsg (d : MsgDescr) (i : Nat) (idx : Option Nat) (fd : FieldDescr)
    (v : LoadVal) (m : PMessage) : PMessage :=
  let m1 :=
    match fd.oneof with
    | some g => clearOneofSiblings d m g i
    | none => m
  m1.set i (storeSlot idx v (m1.getD i default))

/-- Create in a message's direct field `i`, clearing oneof siblings when
the field is a oneof member. -/
def createAtMsg (d : MsgDescr) (i : Nat) (idx : Option Nat)
    (fd : FieldDescr) (v : LoadVal) (m : PMessage) : PMessage :=
  let m1 :=
    match fd.oneof with
    | some g => clearOneofSiblings d m g i
    | none => m
  m1.set i (createSlot idx v (m1.getD i default))

/-- Delete from a message's direct field `i`. -/
def deleteAtMsg (i : Nat) (idx : Option Nat) (m : PMessage) : PMessage :=
  m.set i (deleteSlot idx (m.getD i default))

/-- Store at a site of the root message. -/
def storeAt (s : Schema) (d : MsgDescr) (m : PMessage) (site : Site)
    (v : LoadVal) : PMessage :=
  updAtPath m site.path fun sub =>
    storeAtMsg (descrAtPath s d site.path) site.field site.index site.fd v sub

/-- Create at a site of the root message. -/
def createAt (s : Schema) (d : MsgDescr) (m : PMessage) (site : Site)
    (v : LoadVal) : PMessage :=
  updAtPath m site.path fun sub =>
    createAtMsg (descrAtPath s d site.path) site.field site.index site.fd v sub

/-- Delete at a site of the root message
(`DeleteFieldTransformation`, line 88). -/
def applyDelete (m : PMessage) (site : Site) : PMessage :=
  updAtPath m site.path fun sub => deleteAtMsg site.field site.index sub

/-- Load at a site of the root message. -/
def loadAt (s : Schema) (d : MsgDescr) (m : PMessage) (site : Site) :
    LoadVal :=
  match msgAtPath m site.path with
  | some sub => loadSlot s site.fd site.index (sub.getD site.field default)
  | none => .scalar (defaultSVal site.fd.ftype)

/-- Default value of a field type (`FieldInstance::GetDefault`): scalar
default or a freshly constructed sub-message. -/
def defaultLoadVal (s : Schema) (ft : FType) : LoadVal :=
  match ft with
  | .fMsg mref => .msg (emptyMessage (s.getD mref []))
  | _ => .scalar (defaultSVal ft)

/-- `CreateDefaultFieldTransformation` (line 79): get default, create. -/
def applyCreateDefault (s : Schema) (d : MsgDescr) (m : PMessage)
    (site : Site) : PMessage :=
  createAt s d m site (defaultLoadVal s site.fd.ftype)

/-- `CopyFieldTransformation` (line 95): load from source, store at
destination. -/
def applyCopy (s : Schema) (d : MsgDescr) (m : PMessage)
    (src dst : Site) : PMessage :=
  storeAt s d m dst (loadAt s d m src)

/-- `FieldMutator` scalar dispatch (lines 307-345): per-type scalar
mutation; sub-messages are left unchanged (the sub-message arm is
intentionally empty). -/
def fieldMutateScalar (hint : Nat) (ft : FType) (v : SVal) (r : RNG) :
    SVal × RNG :=
  match ft, v with
  | .fInt32, .vInt32 n => let p := MutateInt32 n r; (.vInt32 p.1, p.2)
  | .fInt64, .vInt64 n => let p := MutateInt64 n r; (.vInt64 p.1, p.2)
  | .fUInt32, .vUInt32 n => let p := MutateUInt32 n r; (.vUInt32 p.1, p.2)
  | .fUInt64, .vUInt64 n => let p := MutateUInt64 n r; (.vUInt64 p.1, p.2)
  | .fBool, .vBool b => (.vBool (MutateBool b), r)
  | .fEnum _ count, .vEnum i =>
    let p := MutateEnum i count r; (.vEnum p.1, p.2)
  | .fString, .vString str =>
    let p := MutateString str hint r; (.vString p.1, p.2)
  | _, _ => (v, r)

/-- `FieldMutator` on a loaded value. -/
def fieldMutateLoadVal (hint : Nat) (ft : FType) (v : LoadVal) (r : RNG) :
    LoadVal × RNG :=
  match v with
  | .scalar sv => let p := fieldMutateScalar hint ft sv r; (.scalar p.1, p.2)
  | .msg sub => (.msg sub, r)

/-- `MutateTransformation` (line 349): load, scalar-mutate, store. -/
def applyMutateField (hint : Nat) (s : Schema) (d : MsgDescr) (m : PMessage)
    (site : Site) (r : RNG) : PMessage × RNG :=
  let p := fieldMutateLoadVal hint site.fd.ftype (loadAt s d m site) r
  (storeAt s d m site p.1, p.2)

/-- `CreateFieldTransformation` (line 366): get default, scalar-mutate,
create. -/
def applyCreateField (hint : Nat) (s : Schema) (d : MsgDescr) (m : PMessage)
    (site : Site) (r : RNG) : PMessage × RNG :=
  let p := fieldMutateLoadVal hint site.fd.ftype
    (defaultLoadVal s site.fd.ftype) r
  (createAt s d m site p.1, p.2)

/-! ## Mutation sampler -/

/-- Mutation kinds (line 42). -/
inductive Mutation where
  | None
  | Add
  | Mutate
  | Delete
  | Copy
deriving DecidableEq, Repr

/-- Candidate offered to the reservoir: a field instance and a mutation. -/
structure Candidate where
  site : Site
  mutation : Mutation
deriving Repr

/-- State of the mutation sampler: the weighted reservoir (total weight and
selected candidate), the random stream, and the log of every offer made
through `Try`, in order.  The reservoir behaviour is modelled from the
spec, section 4.2: src/weighted_reservoir_sampler.h is not among the
sources; an item of weight `w` draws `u` uniform in `[0, W + w)` and
replaces the stored value iff `u < w`, zero-weight items are ignored. -/
structure SampleState where
  total : Nat
  sel : Option Candidate
  rng : RNG
  log : List (Nat × Candidate)

/-- One reservoir offer (`WeightedReservoirSampler::Try`), with logging. -/
def SampleState.Try (st : SampleState) (w : Nat) (c : Candidate) :
    SampleState :=
  if w = 0 then { st with log := st.log ++ [(w, c)] }
  else
    let p := getRandomIndex st.rng (st.total + w)
    { total := st.total + w,
      sel := if p.1 < w then some c else st.sel,
      rng := p.2,
      log := st.log ++ [(w, c)] }

/-- Uniform draw threaded through the sampler state. -/
def SampleState.rand (st : SampleState) (count : Nat) : Nat × SampleState :=
  let p := getRandomIndex st.rng count
  (p.1, { st with rng := p.2 })

/-- Copy weight (`MutationSampler::GetCopyWeight`, line 215): copying
sub-messages can increase size significantly, so they use `add_weight_`;
scalars use `kMutateWeight`. -/
def getCopyWeight (aw : Nat) (fd : FieldDescr) : Nat :=
  if fd.ftype.isMsg then aw else kMutateWeight

/-- Model of `MutationSampler::Sample` (lines 147-213): for every field of
the message offer the applicable `(site, mutation)` candidates to the
reservoir — oneof groups handled once, at their first member; repeated
fields offer `Add` at a random position plus `Mutate`/`Delete`/`Copy` for a
random element when non-empty; singular fields offer
`Mutate`/`Delete`/`Copy` when set (`Delete` suppressed for required fields
when keep-initialized is on) and `Add` when unset — then recurse into every
present sub-message.  `fuel` bounds the recursion depth. -/
def sampleOffers (s : Schema) (ki : Bool) (aw dw : Nat) (d : MsgDescr)
    (path : List PathStep) (m : PMessage) (st : SampleState) (i : Nat) :
    SampleState :=
  let fd := d.getD i default
  let fv := m.getD i default
  match fd.oneof with
  | some g =>
    let members := oneofMembers d g
    if members.head? = some i then
      let p := st.rand members.length
      let j := members.getD p.1 0
      let st := p.2.Try aw ⟨⟨path, j, d.getD j default, none⟩, .Add⟩
      match setOneofMember d m g with
      | some si =>
        let sfd := d.getD si default
        let st :=
          if !sfd.ftype.isMsg then
            st.Try kMutateWeight ⟨⟨path, si, sfd, none⟩, .Mutate⟩
          else st
        let st := st.Try dw ⟨⟨path, si, sfd, none⟩, .Delete⟩
        st.Try (getCopyWeight aw sfd) ⟨⟨path, si, sfd, none⟩, .Copy⟩
      | none => st
    else st
  | none =>
    if fd.label = .repeated then
      let size := fv.rsize
      let p := st.rand (size + 1)
      let st := p.2.Try aw ⟨⟨path, i, fd, some p.1⟩, .Add⟩
      if size ≠ 0 then
        let q := st.rand size
        let st :=
          if !fd.ftype.isMsg then
            q.2.Try kMutateWeight ⟨⟨path, i, fd, some q.1⟩, .Mutate⟩
          else q.2
        let st := st.Try dw ⟨⟨path, i, fd, some q.1⟩, .Delete⟩
        st.Try (getCopyWeight aw fd) ⟨⟨path, i, fd, some q.1⟩, .Copy⟩
      else st
    else
      if fv.isSet then
        let st :=
          if !fd.ftype.isMsg then
            st.Try kMutateWeight ⟨⟨path, i, fd, none⟩, .Mutate⟩
          else st
        let st :=
          if fd.label ≠ Label.required ∨ ki = false then
            st.Try dw ⟨⟨path, i, fd, none⟩, .Delete⟩
          else st
        st.Try (getCopyWeight aw fd) ⟨⟨path, i, fd, none⟩, .Copy⟩
      else st.Try aw ⟨⟨path, i, fd, none⟩, .Add⟩

/-- Per-field step of `MutationSampler::Sample`: make the offers for field
`i`, then recurse into its present sub-messages. -/
def sampleStep (s : Schema) (ki : Bool) (aw dw : Nat)
    (rc : MsgDescr → List PathStep → PMessage → SampleState → SampleState)
    (d : MsgDescr) (path : List PathStep) (m : PMessage)
    (st : SampleState) (i : Nat) : SampleState :=
  let fd := d.getD i default
  let fv := m.getD i default
  let st := sampleOffers s ki aw dw d path m st i
  match fd.ftype with
  | .fMsg mref =>
    let d2 := s.getD mref []
    if fd.label = .repeated then
      (fv.mElems.enum).foldl
        (fun st je => rc d2 (path ++ [⟨i, some je.1⟩]) je.2 st) st
    else
      match fv.subMsg with
      | some sub => rc d2 (path ++ [⟨i, none⟩]) sub st
      | none => st
  | _ => st

/-- Model of `MutationSampler::Sample` (lines 147-213): the per-field step
applied to every field in order.  `fuel` bounds the recursion depth. -/
def sampleMsg : Nat → Schema → Bool → Nat → Nat → MsgDescr →
    List PathStep → PMessage → SampleState → SampleState
  | 0, _, _, _, _, _, _, _, st => st
  | fuel + 1, s, ki, aw, dw, d, path, m, st =>
    (List.range d.length).foldl
      (sampleStep s ki aw dw (sampleMsg fuel s ki aw dw) d path m) st

/-! ## Data-source sampler -/

/-- Compatibility check of the data-source sampler (lines 277-282): same
cpp type; for enums the same enum type; for messages the same message
type. -/
def typeMatch : FType → FType → Bool
  | .fInt32, .fInt32 => true
  | .fInt64, .fInt64 => true
  | .fUInt32, .fUInt32 => true
  | .fUInt64, .fUInt64 => true
  | .fBool, .fBool => true
  | .fEnum e1 _, .fEnum e2 _ => e1 == e2
  | .fString, .fString => true
  | .fMsg r1, .fMsg r2 => r1 == r2
  | _, _ => false

/-- State of the data-source sampler: weighted reservoir over compatible
source sites plus the random stream (reservoir modelled from the spec,
section 4.2, as for `SampleState`). -/
structure DataState where
  total : Nat
  sel : Option Site
  rng : RNG

/-- Reservoir offer of the data-source sampler. -/
def DataState.Try (st : DataState) (w : Nat) (v : Site) : DataState :=
  if w = 0 then st
  else
    let p := getRandomIndex st.rng (st.total + w)
    { total := st.total + w,
      sel := if p.1 < w then some v else st.sel,
      rng := p.2 }

/-- Uniform draw threaded through the data-source state. -/
def DataState.rand (st : DataState) (count : Nat) : Nat × DataState :=
  let p := getRandomIndex st.rng count
  (p.1, { st with rng := p.2 })

/-- Model of `DataSourceSampler::Sample` (lines 259-296): walk the tree
(recursing into sub-messages first, exactly as the C++ loop does), and for
every set field whose type is compatible with the match target offer it to
the reservoir — repeated fields with weight equal to their size and a
uniformly chosen element, singular set fields with weight 1. -/
def dataSourceStep (s : Schema) (mtch : FieldDescr)
    (rc : MsgDescr → List PathStep → PMessage → DataState → DataState)
    (d : MsgDescr) (path : List PathStep) (m : PMessage)
    (st : DataState) (i : Nat) : DataState :=
  let fd := d.getD i default
  let fv := m.getD i default
  let st :=
    match fd.ftype with
    | .fMsg mref =>
      let d2 := s.getD mref []
      if fd.label = .repeated then
        (fv.mElems.enum).foldl
          (fun st je => rc d2 (path ++ [⟨i, some je.1⟩]) je.2 st) st
      else
        match fv.subMsg with
        | some sub => rc d2 (path ++ [⟨i, none⟩]) sub st
        | none => st
    | _ => st
  if typeMatch fd.ftype mtch.ftype then
    if fd.label = .repeated then
      if fv.rsize ≠ 0 then
        let p := st.rand fv.rsize
        p.2.Try fv.rsize ⟨path, i, fd, some p.1⟩
      else st
    else if fv.isSet then st.Try 1 ⟨path, i, fd, none⟩
    else st
  else st

/-- Traversal of `DataSourceSampler::Sample`: the per-field step applied to
every field in order. -/
def dataSourceMsg : Nat → Schema → FieldDescr → MsgDescr → List PathStep →
    PMessage → DataState → DataState
  | 0, _, _, _, _, _, st => st
  | fuel + 1, s, mtch, d, path, m, st =>
    (List.range d.length).foldl
      (dataSourceStep s mtch (dataSourceMsg fuel s mtch) d path m) st

/-- Existence of a compatible set source field anywhere in the tree: the
pure predicate deciding whether the data-source sampler can offer anything
for a target of type `t`. -/
def anyCompatibleSource : Nat → Schema → FType → MsgDescr → PMessage → Bool
  | 0, _, _, _, _ => false
  | fuel + 1, s, t, d, m =>
    (List.range d.length).any fun i =>
      let fd := d.getD i default
      let fv := m.getD i default
      (typeMatch fd.ftype t &&
        (if fd.label = .repeated then fv.rsize ≠ 0 else fv.isSet)) ||
      (match fd.ftype with
       | .fMsg mref =>
         let d2 := s.getD mref []
         if fd.label = .repeated then
           fv.mElems.any fun sub => anyCompatibleSource fuel s t d2 sub
         else
           match fv.subMsg with
           | some sub => anyCompatibleSource fuel s t d2 sub
           | none => false
       | _ => false)

/-! ## Mutate driver -/

/-- Dispatch of one selected mutation (`ProtobufMutator::Mutate`, lines
390-420): `Add` creates either a mutated default (coin heads, with half the
size hint) or the plain default; `Mutate` loads, scalar-mutates and stores;
`Delete` deletes at the site; `Copy` runs the data-source sampler and falls
back to deletion when it is empty, otherwise copies from the selected
source. -/
def applyMutation (fuel : Nat) (s : Schema) (d : MsgDescr) (hint : Nat)
    (m : PMessage) (c : Candidate) (r : RNG) : PMessage × RNG :=
  match c.mutation with
  | .None => (m, r)
  | .Add =>
    let p := getRandomBool r
    if p.1 then applyCreateField (hint / 2) s d m c.site p.2
    else (applyCreateDefault s d m c.site, p.2)
  | .Mutate => applyMutateField (hint / 2) s d m c.site r
  | .Delete => (applyDelete m c.site, r)
  | .Copy =>
    let st := dataSourceMsg fuel s c.site.fd d [] m ⟨0, none, r⟩
    match st.sel with
    | none => (applyDelete m c.site, st.rng)
    | some src => (applyCopy s d m src c.site, st.rng)

/-- Repair step shared by the depth-positive and depth-exhausted cases of
`InitializeMessage`: for every field in order, install the default into an
unset required field, then — when `rc` is present, i.e. `max_depth > 0` —
descend into every present sub-message that is not initialized. -/
def initField (fuel : Nat) (s : Schema)
    (rc : Option (MsgDescr → PMessage → PMessage)) (d : MsgDescr)
    (m : PMessage) (i : Nat) : PMessage :=
  let fd := d.getD i default
  let m :=
    if fd.label = Label.required ∧ (m.getD i default).isSet = false then
      createAtMsg d i none fd (defaultLoadVal s fd.ftype) m
    else m
  match rc, fd.ftype with
  | some rc2, .fMsg mref =>
    let d2 := s.getD mref []
    let fv := m.getD i default
    if fd.label = .repeated then
      m.set i (.mRep (fv.mElems.map fun sub =>
        if msgInitialized fuel s d2 sub then sub else rc2 d2 sub))
    else
      match fv.subMsg with
      | some sub =>
        if msgInitialized fuel s d2 sub then m
        else m.set i (.mOpt (some (rc2 d2 sub)))
      | none => m
  | _, _ => m

/-- Repair pass over one message level: `initField` applied to every field
in order. -/
def initStep (fuel : Nat) (s : Schema)
    (rc : Option (MsgDescr → PMessage → PMessage)) (d : MsgDescr)
    (m : PMessage) : PMessage :=
  (List.range d.length).foldl (initField fuel s rc d) m

/-- Model of `ProtobufMutator::InitializeMessage` (lines 511-540): bounded
recursion installing defaults into unset required fields and descending,
with `max_depth` decreased by one, into every present sub-message that is
not initialized; at `max_depth = 0` no descent happens.  `fuel` is the
recursion bound of the embedded `IsInitialized` checks. -/
def ProtobufMutator.InitializeMessage (fuel : Nat) (s : Schema) :
    Nat → MsgDescr → PMessage → PMessage
  | 0, d, m => initStep fuel s none d m
  | depth + 1, d, m =>
    initStep fuel s
      (some fun d2 sub =>
        ProtobufMutator.InitializeMessage fuel s depth d2 sub) d m

/-- Model of `ProtobufMutator::Mutate` (lines 387-426): build the sampler
with the adjusted weights, apply the selected mutation (the selection is
`none` only when every offer had zero weight; the C++ `switch` then does
nothing), and repair when keep-initialized is on and the result is not
initialized. -/
def ProtobufMutator.Mutate (fuel : Nat) (s : Schema) (d : MsgDescr)
    (ki : Bool) (m : PMessage) (hint : Nat) (r : RNG) : PMessage × RNG :=
  let w := adjustedWeights hint
  let st := sampleMsg fuel s ki w.1 w.2 d [] m ⟨0, none, r, []⟩
  let pr :=
    match st.sel with
    | none => (m, st.rng)
    | some c => applyMutation fuel s d hint m c st.rng
  if ki = true ∧ msgInitialized fuel s d pr.1 = false then
    (ProtobufMutator.InitializeMessage fuel s kMaxInitializeDepth d pr.1,
     pr.2)
  else pr

/-! ## Cross-over driver -/

/-- Swap of two elements of a list (`Reflection::SwapElements`). -/
def swapElems {α : Type} (l : List α) (i j : Nat) : List α :=
  match l[i]?, l[j]? with
  | some a, some b => (l.set i b).set j a
  | _, _ => l

/-- Fisher-Yates shuffle loop of `CrossOverImpl` (lines 460-464): for
`j = 0, 1, ...` draw `k` uniform in `[0, size - j)` and, when `k ≠ 0`, swap
elements `j` and `j + k`.  `steps` counts the remaining iterations; the
loop runs exactly `size` times. -/
def shuffleGo {α : Type} : Nat → Nat → List α → RNG → List α × RNG
  | 0, _, l, r => (l, r)
  | n + 1, j, l, r =>
    let p := getRandomIndex r (l.length - j)
    if p.1 = 0 then shuffleGo n (j + 1) l p.2
    else shuffleGo n (j + 1) (swapElems l j (j + p.1)) p.2

/-- Full shuffle of a list. -/
def shuffleList {α : Type} (l : List α) (r : RNG) : List α × RNG :=
  shuffleGo l.length 0 l r

/-- Blending loop of `CrossOverImpl` for repeated message fields (lines
472-478): `cross` times, draw `k` uniform in `[0, keep)` and `rr` in
`[keep, keep + remove)` and replace element `k` by the recursive cross-over
of source element `rr` into it. -/
def iterCross (rc2 : PMessage → PMessage → RNG → PMessage × RNG)
    (keep remove : Nat) : Nat → List PMessage → RNG → List PMessage × RNG
  | 0, l, r => (l, r)
  | n + 1, l, r =>
    let pk := getRandomIndex r keep
    let pr := getRandomIndex pk.2 remove
    let cr := rc2 (l.getD (keep + pr.1) []) (l.getD pk.1 []) pr.2
    iterCross rc2 keep remove n (l.set pk.1 cr.1) cr.2

/-- Per-field step of `CrossOverImpl` (lines 445-508), parameterised by the
recursive call `rc`.  Repeated fields: append every element of the first
message's field to the second's, shuffle, draw `keep` uniform in
`[0, size]`, for message elements blend `cross` removed elements into kept
ones, then truncate to `keep` elements.  Singular sub-messages: symmetric
loss / copy with probability 1/2, or recursion when both are present.
Singular scalars: with probability 1/2 copy (when present in the first
message) or delete. -/
def crossStep (s : Schema)
    (rc : MsgDescr → PMessage → PMessage → RNG → PMessage × RNG)
    (d : MsgDescr) (m1 : PMessage) (st : PMessage × RNG) (i : Nat) :
    PMessage × RNG :=
  let m2 := st.1
  let r := st.2
  let fd := d.getD i default
  let f1 := m1.getD i default
  let f2 := m2.getD i default
  if fd.label = .repeated then
    match fd.ftype with
    | .fMsg mref =>
      let d2 := s.getD mref []
      let sh := shuffleList (f2.mElems ++ f1.mElems) r
      let pk := getRandomIndex sh.2 (sh.1.length + 1)
      let keep := pk.1
      let remove := sh.1.length - keep
      let pc := getRandomIndex pk.2 (min keep remove + 1)
      let bl := iterCross (rc d2) keep remove pc.1 sh.1 pc.2
      (m2.set i (.mRep (bl.1.take keep)), bl.2)
    | _ =>
      let sh := shuffleList (f2.sElems ++ f1.sElems) r
      let pk := getRandomIndex sh.2 (sh.1.length + 1)
      (m2.set i (.sRep (sh.1.take pk.1)), pk.2)
  else
    match fd.ftype with
    | .fMsg mref =>
      let d2 := s.getD mref []
      if f1.isSet = false then
        let pb := getRandomBool r
        if pb.1 then (deleteAtMsg i none m2, pb.2) else (m2, pb.2)
      else if f2.isSet = false then
        let pb := getRandomBool r
        if pb.1 then
          (storeAtMsg d i none fd (loadSlot s fd none f1) m2, pb.2)
        else (m2, pb.2)
      else
        match f1.subMsg, f2.subMsg with
        | some sub1, some sub2 =>
          let pr := rc d2 sub1 sub2 r
          (m2.set i (.mOpt (some pr.1)), pr.2)
        | _, _ => (m2, r)
    | _ =>
      let pb := getRandomBool r
      if pb.1 then
        if f1.isSet then
          (storeAtMsg d i none fd (loadSlot s fd none f1) m2, pb.2)
        else (deleteAtMsg i none m2, pb.2)
      else (m2, pb.2)

/-- Model of `ProtobufMutator::CrossOverImpl` (lines 438-509): apply the
per-field recombination step to every field in order.  `fuel` bounds the
recursion depth; the C++ recursion terminates because value trees are
finite and cross-over does not increase their height. -/
def ProtobufMutator.CrossOverImpl : Nat → Schema → MsgDescr → PMessage →
    PMessage → RNG → PMessage × RNG
  | 0, _, _, _, m2, r => (m2, r)
  | fuel + 1, s, d, m1, m2, r =>
    (List.range d.length).foldl
      (crossStep s
        (fun d2 sub1 sub2 r2 =>
          ProtobufMutator.CrossOverImpl fuel s d2 sub1 sub2 r2) d m1)
      (m2, r)

/-- Model of `ProtobufMutator::CrossOver` (lines 428-436): cross-over
followed by repair when keep-initialized is on and the result is not
initialized. -/
def ProtobufMutator.CrossOver (fuel : Nat) (s : Schema) (d : MsgDescr)
    (ki : Bool) (m1 m2 : PMessage) (r : RNG) : PMessage × RNG :=
  let pr := ProtobufMutator.CrossOverImpl fuel s d m1 m2 r
  if ki = true ∧ msgInitialized fuel s d pr.1 = false then
    (ProtobufMutator.InitializeMessage fuel s kMaxInitializeDepth d pr.1,
     pr.2)
  else pr

/-! ## Generic fold lemmas

The per-field loops of the C++ are folds over the field indices; the
lemmas below isolate the standard locality reasoning: a view of the state
that no step changes is constant, and a view that only the step at one
index changes is determined by that step. -/

theorem foldl_view_const {σ β γ : Type} (f : σ → β → σ) (view : σ → γ) :
    ∀ (l : List β) (st : σ),
      (∀ st2 b, b ∈ l → view (f st2 b) = view st2) →
      view (l.foldl f st) = view st := by
  intro l
  induction l with
  | nil => intro st _; rfl
  | cons b t ih =>
    intro st h
    rw [List.foldl_cons,
      ih _ (fun st2 b2 hb => h st2 b2 (List.mem_cons_of_mem _ hb))]
    exact h st b (List.mem_cons_self _ _)

theorem foldl_view_invariant {σ β γ : Type} (f : σ → β → σ) (view : σ → γ)
    (Q : γ → γ → Prop) (i : β) :
    ∀ (l : List β) (st : σ), l.Nodup → i ∈ l →
      (∀ st2 b, b ∈ l → b ≠ i → view (f st2 b) = view st2) →
      (∀ st2, Q (view st2) (view (f st2 i))) →
      Q (view st) (view (l.foldl f st)) := by
  intro l
  induction l with
  | nil => intro st _ hi; cases hi
  | cons b t ih =>
    intro st hnd hi hloc hstep
    rw [List.foldl_cons]
    by_cases hbi : b = i
    · subst hbi
      have hnotin : b ∉ t := (List.nodup_cons.mp hnd).1
      have hpres : view (t.foldl f (f st b)) = view (f st b) :=
        foldl_view_const f view t (f st b)
          (fun st2 b2 hb2 =>
            hloc st2 b2 (List.mem_cons_of_mem _ hb2)
              (fun he => hnotin (he ▸ hb2)))
      rw [hpres]
      exact hstep st
    · have hit : i ∈ t := by
        rcases List.mem_cons.mp hi with h | h
        · exact absurd h.symm hbi
        · exact h
      have hv : view (f st b) = view st :=
        hloc st b (List.mem_cons_self _ _) hbi
      have hmain := ih (f st b) (List.nodup_cons.mp hnd).2 hit
        (fun st2 b2 hb2 hne => hloc st2 b2 (List.mem_cons_of_mem _ hb2) hne)
        hstep
      rw [hv] at hmain
      exact hmain

/-! ## Cross-over: repeated-field size bound (C2) -/

/-- Oneof well-formedness, true of every protobuf schema: members of a
oneof group are optional singular fields (required and repeated fields
cannot be placed in a oneof). -/
def oneofFieldsOptional (d : MsgDescr) : Bool :=
  d.all fun fd => fd.oneof = none || fd.label = Label.optional

theorem oneofFieldsOptional_getD (d : MsgDescr) (i : Nat)
    (h : oneofFieldsOptional d = true) :
    (d.getD i default).oneof = none ∨
      (d.getD i default).label = Label.optional := by
  by_cases hi : i < d.length
  · have hmem : d.getD i default ∈ d := by
      rw [List.getD_eq_getElem?_getD, List.getElem?_eq_getElem hi]
      exact List.getElem_mem _
    have := List.all_eq_true.mp h _ hmem
    rcases Bool.or_eq_true_iff.mp this with h2 | h2
    · left; exact decide_eq_true_eq.mp h2
    · right; exact decide_eq_true_eq.mp h2
  · left
    rw [List.getD_eq_default _ _ (by omega)]
    rfl

theorem swapElems_length {α : Type} (l : List α) (i j : Nat) :
    (swapElems l i j).length = l.length := by
  unfold swapElems
  cases hi : l[i]? with
  | none => rfl
  | some a =>
    cases hj : l[j]? with
    | none => rfl
    | some b => simp [List.length_set]

theorem shuffleGo_length {α : Type} :
    ∀ (n j : Nat) (l : List α) (r : RNG),
      (shuffleGo n j l r).1.length = l.length := by
  intro n
  induction n with
  | zero => intro j l r; rfl
  | succ k ih =>
    intro j l r
    simp only [shuffleGo]
    by_cases h : (getRandomIndex r (l.length - j)).1 = 0
    · rw [if_pos h, ih]
    · rw [if_neg h, ih, swapElems_length]

theorem shuffleList_length {α : Type} (l : List α) (r : RNG) :
    (shuffleList l r).1.length = l.length := shuffleGo_length _ _ _ _

theorem iterCross_length (rc2 : PMessage → PMessage → RNG → PMessage × RNG)
    (keep remove : Nat) :
    ∀ (n : Nat) (l : List PMessage) (r : RNG),
      (iterCross rc2 keep remove n l r).1.length = l.length := by
  intro n
  induction n with
  | zero => intro l r; rfl
  | succ k ih =>
    intro l r
    simp only [iterCross]
    rw [ih, List.length_set]

theorem rsize_sRep (l : List SVal) : (FieldVal.sRep l).rsize = l.length :=
  rfl

theorem rsize_mRep (l : List PMessage) :
    (FieldVal.mRep l).rsize = l.length := rfl

theorem sElems_length_le_rsize (fv : FieldVal) :
    fv.sElems.length ≤ fv.rsize := by
  cases fv <;> simp [FieldVal.sElems, FieldVal.rsize]

theorem mElems_length_le_rsize (fv : FieldVal) :
    fv.mElems.length ≤ fv.rsize := by
  cases fv <;> simp [FieldVal.mElems, FieldVal.rsize]

theorem getD_set_self_rsize {i : Nat} (m : PMessage) (fv : FieldVal) :
    ((m.set i fv).getD i default).rsize ≤ fv.rsize := by
  by_cases hi : i < m.length
  · rw [List.getD_eq_getElem?_getD, List.getElem?_set_self hi]
    rfl
  · rw [List.set_eq_of_length_le (by omega),
      List.getD_eq_default _ _ (by omega)]
    simp [FieldVal.rsize]

theorem clearOneofSiblings_getD_of_none (d : MsgDescr) (m : PMessage)
    (g keep i : Nat) (h : (d.getD i default).oneof = none) :
    (clearOneofSiblings d m g keep).getD i default = m.getD i default := by
  unfold clearOneofSiblings
  rw [List.getD_eq_getElem?_getD, List.getD_eq_getElem?_getD,
    List.getElem?_mapIdx]
  cases hm : m[i]? with
  | none => rfl
  | some fv =>
    have hno : ¬ (i ≠ keep ∧ (d.getD i default).oneof = some g) := by
      intro hc
      rw [h] at hc
      exact Option.noConfusion hc.2
    rw [List.getD_eq_getElem?_getD] at h
    simp [hno]
    intro _ hc
    rw [h] at hc
    exact Option.noConfusion hc

/-- Every branch of `crossStep` at field `j` leaves slot `i ≠ j` unchanged,
provided that slot `i` is not a oneof member (here: that it is a repeated
field of a oneof-well-formed schema). -/
theorem crossStep_getD_other (s : Schema)
    (rc : MsgDescr → PMessage → PMessage → RNG → PMessage × RNG)
    (d : MsgDescr) (m1 : PMessage) (i : Nat)
    (hoi : (d.getD i default).oneof = none)
    (st : PMessage × RNG) (j : Nat) (hne : j ≠ i) :
    (crossStep s rc d m1 st j).1.getD i default = st.1.getD i default := by
  have hset : ∀ (m : PMessage) (fv : FieldVal),
      (m.set j fv).getD i default = m.getD i default := by
    intro m fv
    rw [List.getD_eq_getElem?_getD, List.getD_eq_getElem?_getD,
      List.getElem?_set_ne hne]
  have hdel : ∀ (m : PMessage),
      (deleteAtMsg j none m).getD i default = m.getD i default := by
    intro m; unfold deleteAtMsg; exact hset _ _
  have hstore : ∀ (fd : FieldDescr) (v : LoadVal) (m : PMessage),
      (storeAtMsg d j none fd v m).getD i default = m.getD i default := by
    intro fd v m
    unfold storeAtMsg
    cases hg : fd.oneof with
    | none => simp only [hg]; exact hset _ _
    | some g =>
      simp only [hg]
      rw [hset, clearOneofSiblings_getD_of_none d m g j i hoi]
  unfold crossStep
  by_cases hrep : (d.getD j default).label = Label.repeated
  · rw [if_pos hrep]
    cases (d.getD j default).ftype <;>
      simp only [] <;> exact hset _ _
  · rw [if_neg hrep]
    cases hft : (d.getD j default).ftype with
    | fMsg mref =>
      simp only []
      by_cases h1 : (m1.getD j default).isSet = false
      · rw [if_pos h1]
        by_cases hb : ((getRandomBool st.2).1 : Bool)
        · rw [if_pos hb]; exact hdel _
        · rw [if_neg hb]
      · rw [if_neg h1]
        by_cases h2 : (st.1.getD j default).isSet = false
        · rw [if_pos h2]
          by_cases hb : ((getRandomBool st.2).1 : Bool)
          · rw [if_pos hb]; exact hstore _ _ _
          · rw [if_neg hb]
        · rw [if_neg h2]
          cases (m1.getD j default).subMsg <;>
            cases (st.1.getD j default).subMsg <;> simp only [] <;>
              first
                | rfl
                | exact hset _ _
    | fInt32 => ?_
    | fInt64 => ?_
    | fUInt32 => ?_
    | fUInt64 => ?_
    | fBool => ?_
    | fEnum e c => ?_
    | fString => ?_
    all_goals
      simp only []
      by_cases hb : ((getRandomBool st.2).1 : Bool)
      · rw [if_pos hb]
        by_cases h1 : ((m1.getD j default).isSet : Bool)
        · rw [if_pos h1]; exact hstore _ _ _
        · rw [if_neg h1]; exact hdel _
      · rw [if_neg hb]

/-- Size effect of `crossStep` on the repeated field it processes: the new
slot holds `keep ≤ size1 + size2` elements. -/
theorem crossStep_rsize_bound (s : Schema)
    (rc : MsgDescr → PMessage → PMessage → RNG → PMessage × RNG)
    (d : MsgDescr) (m1 : PMessage) (i : Nat)
    (hrep : (d.getD i default).label = Label.repeated)
    (st : PMessage × RNG) :
    ((crossStep s rc d m1 st i).1.getD i default).rsize ≤
      (m1.getD i default).rsize + (st.1.getD i default).rsize := by
  unfold crossStep
  rw [if_pos hrep]
  cases hft : (d.getD i default).ftype with
  | fMsg mref =>
    simp only []
    refine le_trans (getD_set_self_rsize _ _) ?_
    rw [rsize_mRep, List.length_take, iterCross_length, shuffleList_length,
      List.length_append]
    have h1 := mElems_length_le_rsize (m1.getD i default)
    have h2 := mElems_length_le_rsize (st.1.getD i default)
    omega
  | fInt32 => ?_
  | fInt64 => ?_
  | fUInt32 => ?_
  | fUInt64 => ?_
  | fBool => ?_
  | fEnum e c => ?_
  | fString => ?_
  all_goals
    simp only []
    refine le_trans (getD_set_self_rsize _ _) ?_
    rw [rsize_sRep, List.length_take, shuffleList_length,
      List.length_append]
    have h1 := sElems_length_le_rsize (m1.getD i default)
    have h2 := sElems_length_le_rsize (st.1.getD i default)
    omega

/-- C2: for every pair of same-schema messages and every repeated field,
the cross-over recombination of that field — append the source elements to
the target, Fisher-Yates shuffle, truncate to a uniformly drawn
`keep ∈ [0, size1 + size2]` — leaves the target field with at most
`size1 + size2` elements; when source and target coincide, at most twice
the original size.  The oneof hypothesis states what protobuf guarantees:
oneof members are optional, hence no oneof clearing ever touches a repeated
field. -/
theorem crossOver_repeated_size_bound (fuel : Nat) (s : Schema)
    (d : MsgDescr) (m1 m2 : PMessage) (r : RNG) (i : Nat)
    (hwf : oneofFieldsOptional d = true)
    (hrep : (d.getD i default).label = Label.repeated) :
    ((ProtobufMutator.CrossOverImpl fuel s d m1 m2 r).1.getD i
          default).rsize ≤
        (m1.getD i default).rsize + (m2.getD i default).rsize ∧
      (m1 = m2 →
        ((ProtobufMutator.CrossOverImpl fuel s d m1 m2 r).1.getD i
            default).rsize ≤ 2 * (m2.getD i default).rsize) := by
  have hoi : (d.getD i default).oneof = none := by
    rcases oneofFieldsOptional_getD d i hwf with h | h
    · exact h
    · rw [hrep] at h
      exact Label.noConfusion h
  have hb : ((ProtobufMutator.CrossOverImpl fuel s d m1 m2 r).1.getD i
      default).rsize ≤
      (m1.getD i default).rsize + (m2.getD i default).rsize := by
    cases fuel with
    | zero =>
      simp only [ProtobufMutator.CrossOverImpl]
      omega
    | succ n =>
      have hi : i < d.length := by
        by_contra hni
        rw [List.getD_eq_default _ _ (by omega)] at hrep
        exact absurd hrep (by decide)
      have hmain := foldl_view_invariant
        (crossStep s
          (fun d2 sub1 sub2 r2 =>
            ProtobufMutator.CrossOverImpl n s d2 sub1 sub2 r2) d m1)
        (fun st => st.1.getD i default)
        (fun a b => b.rsize ≤ (m1.getD i default).rsize + a.rsize) i
        (List.range d.length) (m2, r) (List.nodup_range _)
        (List.mem_range.mpr hi)
        (fun st2 b _ hne => crossStep_getD_other s _ d m1 i hoi st2 b hne)
        (fun st2 => crossStep_rsize_bound s _ d m1 i hrep st2)
      simpa only [ProtobufMutator.CrossOverImpl] using hmain
  refine ⟨hb, fun he => ?_⟩
  rw [he] at hb ⊢
  omega

/-- Concrete message used by the cross-over witness:
`M {a = 1; c = [10, 20]}` over the schema
`M {required int32 a; optional string b; repeated int32 c}`. -/
def exM1 : PMessage :=
  [.sOpt (some (.vInt32 1)), .sOpt none,
   .sRep [.vInt32 10, .vInt32 20]]

/-- Concrete message used by the cross-over witness: `M {a = 2; c = [30]}`. -/
def exM2 : PMessage :=
  [.sOpt (some (.vInt32 2)), .sOpt none, .sRep [.vInt32 30]]

/-- Schema `M {required int32 a; optional string b; repeated int32 c}` of
the spec's concrete scenarios. -/
def exDescr : MsgDescr :=
  [⟨FType.fInt32, Label.required, none⟩,
   ⟨FType.fString, Label.optional, none⟩,
   ⟨FType.fInt32, Label.repeated, none⟩]

/-- C2 witness: crossing `M {a=1, c=[10,20]}` into `M {a=2, c=[30]}` leaves
`|c| ≤ 3`. -/
theorem crossOver_repeated_size_bound_witness :
    ((ProtobufMutator.CrossOverImpl 2 [] exDescr exM1 exM2
          ⟨fun _ => 0, 0⟩).1.getD 2 default).rsize ≤
        (exM1.getD 2 default).rsize + (exM2.getD 2 default).rsize :=
  (crossOver_repeated_size_bound 2 [] exDescr exM1 exM2 ⟨fun _ => 0, 0⟩ 2
    (by decide) (by decide)).1

/-! ## Copy fallback (C4) -/

theorem foldl_eq_self {σ β : Type} (l : List β) (f : σ → β → σ) (st : σ)
    (h : ∀ st2 b, b ∈ l → f st2 b = st2) : l.foldl f st = st :=
  foldl_view_const f id l st h

/-- The matching half of `dataSourceStep` offers nothing when the field is
not a compatible set (or non-empty repeated) field. -/
theorem dataSource_match_id (t : FType) (st2 : DataState)
    (path : List PathStep) (i : Nat) (fd : FieldDescr) (fv : FieldVal)
    (hA : (typeMatch fd.ftype t &&
      (if fd.label = Label.repeated then decide (fv.rsize ≠ 0)
       else fv.isSet)) = false) :
    (if typeMatch fd.ftype t then
      if fd.label = Label.repeated then
        if fv.rsize ≠ 0 then
          let p := st2.rand fv.rsize
          p.2.Try fv.rsize ⟨path, i, fd, some p.1⟩
        else st2
      else if fv.isSet then st2.Try 1 ⟨path, i, fd, none⟩
      else st2
    else st2) = st2 := by
  by_cases htm : typeMatch fd.ftype t = true
  · rw [htm] at hA
    simp only [Bool.true_and] at hA
    rw [if_pos htm]
    by_cases hlab : fd.label = Label.repeated
    · rw [if_pos hlab]
      rw [if_pos hlab] at hA
      have hz : fv.rsize = 0 := by simpa using hA
      rw [if_neg (by omega)]
    · rw [if_neg hlab]
      rw [if_neg hlab] at hA
      rw [hA]
      simp only [Bool.false_eq_true, if_false]
  · rw [if_neg htm]

/-- When the tree holds no set field compatible with the match target, the
data-source traversal changes nothing: it offers no candidate and draws no
random value. -/
theorem dataSource_empty_of_no_compatible :
    ∀ (fuel : Nat) (s : Schema) (mtch : FieldDescr) (d : MsgDescr)
      (path : List PathStep) (m : PMessage) (st : DataState),
      anyCompatibleSource fuel s mtch.ftype d m = false →
      dataSourceMsg fuel s mtch d path m st = st := by
  intro fuel
  induction fuel with
  | zero => intros; rfl
  | succ n ih =>
    intro s mtch d path m st hno
    simp only [dataSourceMsg]
    apply foldl_eq_self
    intro st2 i hi
    have hP : (typeMatch (d.getD i default).ftype mtch.ftype &&
        (if (d.getD i default).label = Label.repeated then
          decide ((m.getD i default).rsize ≠ 0)
        else (m.getD i default).isSet)) = false ∧
        (match (d.getD i default).ftype with
         | FType.fMsg mref =>
           if (d.getD i default).label = Label.repeated then
             (m.getD i default).mElems.any fun sub =>
               anyCompatibleSource n s mtch.ftype (s.getD mref []) sub
           else
             match (m.getD i default).subMsg with
             | some sub =>
               anyCompatibleSource n s mtch.ftype (s.getD mref []) sub
             | none => false
         | _ => false) = false := by
      have h1 := List.any_eq_false.mp
        (by simpa only [anyCompatibleSource] using hno) i hi
      simp only [Bool.or_eq_true, not_or, Bool.not_eq_true] at h1
      exact h1
    obtain ⟨hA, hB⟩ := hP
    simp only [dataSourceStep]
    have hrec : (match (d.getD i default).ftype with
        | FType.fMsg mref =>
          if (d.getD i default).label = Label.repeated then
            ((m.getD i default).mElems.enum).foldl
              (fun st3 je =>
                dataSourceMsg n s mtch (s.getD mref [])
                  (path ++ [⟨i, some je.1⟩]) je.2 st3) st2
          else
            match (m.getD i default).subMsg with
            | some sub =>
              dataSourceMsg n s mtch (s.getD mref [])
                (path ++ [⟨i, none⟩]) sub st2
            | none => st2
        | _ => st2) = st2 := by
      split
      · rename_i mref heq
        rw [heq] at hB
        have hB2 : (if (d.getD i default).label = Label.repeated then
              (m.getD i default).mElems.any fun sub =>
                anyCompatibleSource n s mtch.ftype (s.getD mref []) sub
            else
              match (m.getD i default).subMsg with
              | some sub =>
                anyCompatibleSource n s mtch.ftype (s.getD mref []) sub
              | none => false) = false := hB
        by_cases hlab : (d.getD i default).label = Label.repeated
        · rw [if_pos hlab]
          rw [if_pos hlab] at hB2
          apply foldl_eq_self
          intro st3 je hje
          have hsub : je.2 ∈ (m.getD i default).mElems :=
            List.snd_mem_of_mem_enum hje
          have hany := List.any_eq_false.mp hB2 je.2 hsub
          exact ih s mtch _ _ je.2 st3 (by simpa using hany)
        · rw [if_neg hlab]
          rw [if_neg hlab] at hB2
          cases hsm : (m.getD i default).subMsg with
          | none => rfl
          | some sub =>
            rw [hsm] at hB2
            exact ih s mtch _ _ sub st2 (by simpa using hB2)
      · rfl
    rw [hrec]
    exact dataSource_match_id mtch.ftype st2 path i _ _ hA

/-- C4: when the driver dispatches a `Copy` mutation and no set field of a
type compatible with the selected site exists anywhere in the tree (so the
data-source sampler is empty), the driver applies the `Delete`
transformation to the selected site instead; the random stream is not even
advanced, since an empty traversal draws nothing. -/
theorem copy_falls_back_to_delete (fuel : Nat) (s : Schema) (d : MsgDescr)
    (hint : Nat) (m : PMessage) (site : Site) (r : RNG)
    (hno : anyCompatibleSource fuel s site.fd.ftype d m = false) :
    applyMutation fuel s d hint m ⟨site, Mutation.Copy⟩ r =
      (applyDelete m site, r) := by
  simp only [applyMutation]
  rw [dataSource_empty_of_no_compatible fuel s site.fd d [] m
    ⟨0, none, r⟩ hno]

/-- Message `M {b = "h"}` (only the string field set) used by the copy
fallback witness: no set `int32` source exists in it. -/
def mC4 : PMessage :=
  [.sOpt none, .sOpt (some (.vString [104])), .sRep []]

/-- Site of field `a` (`required int32`) of `exDescr` at the root. -/
def siteC4 : Site :=
  ⟨[], 0, ⟨FType.fInt32, Label.required, none⟩, none⟩

/-- C4 witness: on `M {b = "h"}` with target type `int32`, the source
sampler is empty and the `Copy` dispatch deletes at the selected site. -/
theorem copy_falls_back_to_delete_witness :
    anyCompatibleSource 2 [] siteC4.fd.ftype exDescr mC4 = false ∧
      applyMutation 2 [] exDescr 0 mC4 ⟨siteC4, Mutation.Copy⟩
          ⟨fun _ => 7, 0⟩ =
        (applyDelete mC4 siteC4, ⟨fun _ => 7, 0⟩) :=
  ⟨by rfl,
   copy_falls_back_to_delete 2 [] exDescr 0 mC4 siteC4 ⟨fun _ => 7, 0⟩
     (by rfl)⟩

/-! ## Repair pass (C3) -/

theorem defaultLoadVal_scalar (s : Schema) (ft : FType)
    (h : ft.isMsg = false) :
    defaultLoadVal s ft = LoadVal.scalar (defaultSVal ft) := by
  cases ft with
  | fMsg mref => exact absurd h (by simp [FType.isMsg])
  | _ => rfl

theorem createAtMsg_no_oneof (d : MsgDescr) (i : Nat) (idx : Option Nat)
    (fd : FieldDescr) (v : LoadVal) (m : PMessage) (h : fd.oneof = none) :
    createAtMsg d i idx fd v m =
      m.set i (createSlot idx v (m.getD i default)) := by
  simp only [createAtMsg, h]

theorem required_oneof_none (d : MsgDescr) (i : Nat)
    (hwf : oneofFieldsOptional d = true)
    (hreq : (d.getD i default).label = Label.required) :
    (d.getD i default).oneof = none := by
  rcases oneofFieldsOptional_getD d i hwf with h | h
  · exact h
  · rw [hreq] at h
    exact absurd h (by decide)

/-- A field step of the repair pass changes no other slot and keeps the
length (under oneof well-formedness no install clears siblings). -/
theorem initField_other (fuel : Nat) (s : Schema)
    (rc : Option (MsgDescr → PMessage → PMessage)) (d : MsgDescr)
    (hwf : oneofFieldsOptional d = true) (i : Nat) (m2 : PMessage) (j : Nat)
    (hne : j ≠ i) :
    (initField fuel s rc d m2 j).getD i default = m2.getD i default ∧
      (initField fuel s rc d m2 j).length = m2.length := by
  have hset : ∀ (mm : PMessage) (fv : FieldVal),
      (mm.set j fv).getD i default = mm.getD i default ∧
        (mm.set j fv).length = mm.length := by
    intro mm fv
    refine ⟨?_, List.length_set _ _ _⟩
    rw [List.getD_eq_getElem?_getD, List.getD_eq_getElem?_getD,
      List.getElem?_set_ne hne]
  have hinst :
      (if (d.getD j default).label = Label.required ∧
          ((m2.getD j default).isSet = false) then
        createAtMsg d j none (d.getD j default)
          (defaultLoadVal s (d.getD j default).ftype) m2
      else m2).getD i default = m2.getD i default ∧
      (if (d.getD j default).label = Label.required ∧
          ((m2.getD j default).isSet = false) then
        createAtMsg d j none (d.getD j default)
          (defaultLoadVal s (d.getD j default).ftype) m2
      else m2).length = m2.length := by
    split
    · rename_i hcond
      rw [createAtMsg_no_oneof _ _ _ _ _ _
        (required_oneof_none d j hwf hcond.1)]
      exact hset _ _
    · exact ⟨rfl, rfl⟩
  have hmatch : ∀ (mm : PMessage),
      mm.getD i default = m2.getD i default → mm.length = m2.length →
      ((match rc, (d.getD j default).ftype with
        | some rc2, FType.fMsg mref =>
          let d2 := s.getD mref []
          let fv := mm.getD j default
          if (d.getD j default).label = Label.repeated then
            mm.set j (.mRep (fv.mElems.map fun sub =>
              if msgInitialized fuel s d2 sub then sub else rc2 d2 sub))
          else
            match fv.subMsg with
            | some sub =>
              if msgInitialized fuel s d2 sub then mm
              else mm.set j (.mOpt (some (rc2 d2 sub)))
            | none => mm
        | _, _ => mm) : PMessage).getD i default = m2.getD i default ∧
      ((match rc, (d.getD j default).ftype with
        | some rc2, FType.fMsg mref =>
          let d2 := s.getD mref []
          let fv := mm.getD j default
          if (d.getD j default).label = Label.repeated then
            mm.set j (.mRep (fv.mElems.map fun sub =>
              if msgInitialized fuel s d2 sub then sub else rc2 d2 sub))
          else
            match fv.subMsg with
            | some sub =>
              if msgInitialized fuel s d2 sub then mm
              else mm.set j (.mOpt (some (rc2 d2 sub)))
            | none => mm
        | _, _ => mm) : PMessage).length = m2.length := by
    intro mm h1 h2
    cases rc with
    | none => exact ⟨h1, h2⟩
    | some rc2 =>
      cases hft : (d.getD j default).ftype with
      | fMsg mref =>
        simp only [hft]
        by_cases hlab : (d.getD j default).label = Label.repeated
        · rw [if_pos hlab]
          refine ⟨?_, ?_⟩
          · rw [(hset mm _).1, h1]
          · rw [(hset mm _).2, h2]
        · rw [if_neg hlab]
          cases hsm : (mm.getD j default).subMsg with
          | none => exact ⟨h1, h2⟩
          | some sub =>
            simp only []
            by_cases hini :
                msgInitialized fuel s (s.getD mref []) sub = true
            · rw [if_pos hini]
              exact ⟨h1, h2⟩
            · rw [if_neg hini]
              refine ⟨?_, ?_⟩
              · rw [(hset mm _).1, h1]
              · rw [(hset mm _).2, h2]
      | fInt32 => simp only [hft]; exact ⟨h1, h2⟩
      | fInt64 => simp only [hft]; exact ⟨h1, h2⟩
      | fUInt32 => simp only [hft]; exact ⟨h1, h2⟩
      | fUInt64 => simp only [hft]; exact ⟨h1, h2⟩
      | fBool => simp only [hft]; exact ⟨h1, h2⟩
      | fEnum e c => simp only [hft]; exact ⟨h1, h2⟩
      | fString => simp only [hft]; exact ⟨h1, h2⟩
  simp only [initField]
  exact hmatch _ hinst.1 hinst.2

theorem getD_set_self (m : PMessage) (i : Nat) (hi : i < m.length)
    (fv : FieldVal) : (m.set i fv).getD i default = fv := by
  rw [List.getD_eq_getElem?_getD, List.getElem?_set_self hi]
  rfl

/-- Repair step at an unset required scalar field: the schema default is
installed. -/
theorem initField_at_required_scalar (fuel : Nat) (s : Schema)
    (rc : Option (MsgDescr → PMessage → PMessage)) (d : MsgDescr)
    (hwf : oneofFieldsOptional d = true) (i : Nat)
    (hreq : (d.getD i default).label = Label.required)
    (hscal : (d.getD i default).ftype.isMsg = false)
    (m2 : PMessage) (hi : i < m2.length)
    (hslot : m2.getD i default = FieldVal.sOpt none) :
    (initField fuel s rc d m2 i).getD i default =
      FieldVal.sOpt (some (defaultSVal (d.getD i default).ftype)) := by
  have honeof := required_oneof_none d i hwf hreq
  simp only [initField]
  rw [if_pos ⟨hreq, by rw [hslot]; rfl⟩]
  rw [createAtMsg_no_oneof _ _ _ _ _ _ honeof]
  rw [hslot, defaultLoadVal_scalar s _ hscal]
  cases rc with
  | none =>
    exact getD_set_self m2 i hi _
  | some rc2 =>
    cases hft : (d.getD i default).ftype with
    | fMsg mref =>
      rw [hft] at hscal
      exact absurd hscal (by simp [FType.isMsg])
    | fInt32 => simp only [hft]; exact getD_set_self m2 i hi _
    | fInt64 => simp only [hft]; exact getD_set_self m2 i hi _
    | fUInt32 => simp only [hft]; exact getD_set_self m2 i hi _
    | fUInt64 => simp only [hft]; exact getD_set_self m2 i hi _
    | fBool => simp only [hft]; exact getD_set_self m2 i hi _
    | fEnum e c => simp only [hft]; exact getD_set_self m2 i hi _
    | fString => simp only [hft]; exact getD_set_self m2 i hi _

/-- Repair step at a present, uninitialized singular sub-message: the pass
descends. -/
theorem initField_at_msgOpt (fuel : Nat) (s : Schema)
    (rcf : MsgDescr → PMessage → PMessage) (d : MsgDescr) (i : Nat)
    (mref : Nat) (hft : (d.getD i default).ftype = FType.fMsg mref)
    (hlab : (d.getD i default).label ≠ Label.repeated)
    (m2 : PMessage) (hi : i < m2.length) (sub : PMessage)
    (hslot : m2.getD i default = FieldVal.mOpt (some sub))
    (huninit : msgInitialized fuel s (s.getD mref []) sub = false) :
    (initField fuel s (some rcf) d m2 i).getD i default =
      FieldVal.mOpt (some (rcf (s.getD mref []) sub)) := by
  simp only [initField]
  rw [if_neg (fun hc => by
    rw [hslot] at hc
    simp [FieldVal.isSet] at hc)]
  simp only [hft, hslot]
  rw [if_neg hlab]
  simp only [FieldVal.subMsg]
  rw [if_neg (show ¬(msgInitialized fuel s (s.getD mref []) sub = true) by
    rw [huninit]
    simp)]
  exact getD_set_self m2 i hi _

/-- Repair step at a repeated sub-message field: every uninitialized
element is descended into, initialized elements are kept. -/
theorem initField_at_msgRep (fuel : Nat) (s : Schema)
    (rcf : MsgDescr → PMessage → PMessage) (d : MsgDescr) (i : Nat)
    (mref : Nat) (hft : (d.getD i default).ftype = FType.fMsg mref)
    (hlab : (d.getD i default).label = Label.repeated)
    (m2 : PMessage) (hi : i < m2.length) (vs : List PMessage)
    (hslot : m2.getD i default = FieldVal.mRep vs) :
    (initField fuel s (some rcf) d m2 i).getD i default =
      FieldVal.mRep (vs.map fun sub =>
        if msgInitialized fuel s (s.getD mref []) sub then sub
        else rcf (s.getD mref []) sub) := by
  simp only [initField]
  rw [if_neg (fun hc => by
    rw [hlab] at hc
    exact absurd hc.1 (by decide))]
  simp only [hft, hslot]
  rw [if_pos hlab]
  simp only [FieldVal.mElems]
  exact getD_set_self m2 i hi _

/-- Repair step at an unset required sub-message field (lines 520-521 then
533-536): a fresh default sub-message is installed and, when the depth
bound still allows descent, descended into whenever it is not
initialized. -/
theorem initField_at_required_msg (fuel : Nat) (s : Schema)
    (rc : Option (MsgDescr → PMessage → PMessage)) (d : MsgDescr)
    (hwf : oneofFieldsOptional d = true) (i : Nat) (mref : Nat)
    (hreq : (d.getD i default).label = Label.required)
    (hft : (d.getD i default).ftype = FType.fMsg mref)
    (m2 : PMessage) (hi : i < m2.length)
    (hslot : m2.getD i default = FieldVal.mOpt none) :
    (initField fuel s rc d m2 i).getD i default =
      (match rc with
       | none => FieldVal.mOpt (some (emptyMessage (s.getD mref [])))
       | some rc2 =>
         if msgInitialized fuel s (s.getD mref [])
             (emptyMessage (s.getD mref [])) then
           FieldVal.mOpt (some (emptyMessage (s.getD mref [])))
         else
           FieldVal.mOpt (some (rc2 (s.getD mref [])
             (emptyMessage (s.getD mref []))))) := by
  simp only [initField]
  rw [if_pos ⟨hreq, by rw [hslot]; rfl⟩]
  rw [createAtMsg_no_oneof _ _ _ _ _ _ (required_oneof_none d i hwf hreq)]
  rw [hslot]
  simp only [hft, defaultLoadVal, createSlot]
  cases rc with
  | none =>
    simp only []
    exact getD_set_self m2 i hi _
  | some rc2 =>
    simp only []
    rw [if_neg (show ¬(d.getD i default).label = Label.repeated by
      rw [hreq]
      decide)]
    rw [getD_set_self m2 i hi _]
    simp only [FieldVal.subMsg]
    by_cases hini : msgInitialized fuel s (s.getD mref [])
        (emptyMessage (s.getD mref [])) = true
    · rw [if_pos hini, if_pos hini]
      exact getD_set_self m2 i hi _
    · rw [if_neg hini, if_neg hini]
      exact getD_set_self _ i (by rw [List.length_set]; exact hi) _

/-- One-field characterization of the whole per-level repair fold. -/
theorem initStep_at (fuel : Nat) (s : Schema)
    (rc : Option (MsgDescr → PMessage → PMessage)) (d : MsgDescr)
    (hwf : oneofFieldsOptional d = true) (i : Nat) (hid : i < d.length)
    (m : PMessage) (him : i < m.length) (V W : FieldVal)
    (hV : m.getD i default = V)
    (hstep : ∀ m2 : PMessage, i < m2.length → m2.getD i default = V →
      (initField fuel s rc d m2 i).getD i default = W) :
    (initStep fuel s rc d m).getD i default = W := by
  have main := foldl_view_invariant (initField fuel s rc d)
    (fun mm => (mm.getD i default, mm.length))
    (fun a b => (a.1 = V ∧ a.2 = m.length) → b.1 = W) i
    (List.range d.length) m (List.nodup_range _) (List.mem_range.mpr hid)
    (fun m2 j _ hne => by
      have h := initField_other fuel s rc d hwf i m2 j hne
      rw [Prod.ext_iff]
      exact ⟨h.1, h.2⟩)
    (fun m2 hpre => hstep m2 (by
      have h2 : m2.length = m.length := hpre.2
      omega) hpre.1)
  exact main ⟨hV, rfl⟩

/-- C3: the repair pass installs the schema default into every required
field that is unset — a scalar default for scalar-typed fields, a fresh
default sub-message for message-typed fields (itself descended into when
the depth bound allows and it is not initialized) — and descends, with the
depth bound decreased by one, into every present sub-message (singular or
repeated element) that is not initialized; and, end to end, mutating
`M {}` (required `int32 a` unset) with keep-initialized on yields an
output whose field `a` is set to the default `0` (the driver runs the
repair with `max_depth = 32` whenever the mutated message is not
initialized). -/
theorem initializeMessage_repairs :
    (∀ (fuel depth : Nat) (s : Schema) (d : MsgDescr) (m : PMessage),
      oneofFieldsOptional d = true →
      ∀ i, i < m.length →
        ((d.getD i default).label = Label.required →
          (d.getD i default).ftype.isMsg = false →
          m.getD i default = FieldVal.sOpt none →
          (ProtobufMutator.InitializeMessage fuel s depth d m).getD i
              default =
            FieldVal.sOpt (some (defaultSVal (d.getD i default).ftype))) ∧
        (∀ dd mref sub, depth = dd + 1 →
          (d.getD i default).ftype = FType.fMsg mref →
          (d.getD i default).label ≠ Label.repeated →
          m.getD i default = FieldVal.mOpt (some sub) →
          msgInitialized fuel s (s.getD mref []) sub = false →
          (ProtobufMutator.InitializeMessage fuel s depth d m).getD i
              default =
            FieldVal.mOpt (some (ProtobufMutator.InitializeMessage fuel s
              dd (s.getD mref []) sub))) ∧
        (∀ dd mref vs, depth = dd + 1 →
          (d.getD i default).ftype = FType.fMsg mref →
          (d.getD i default).label = Label.repeated →
          m.getD i default = FieldVal.mRep vs →
          (ProtobufMutator.InitializeMessage fuel s depth d m).getD i
              default =
            FieldVal.mRep (vs.map fun sub =>
              if msgInitialized fuel s (s.getD mref []) sub then sub
              else ProtobufMutator.InitializeMessage fuel s dd
                (s.getD mref []) sub)) ∧
        (∀ dd mref, depth = dd + 1 →
          (d.getD i default).label = Label.required →
          (d.getD i default).ftype = FType.fMsg mref →
          m.getD i default = FieldVal.mOpt none →
          (ProtobufMutator.InitializeMessage fuel s depth d m).getD i
              default =
            (if msgInitialized fuel s (s.getD mref [])
                (emptyMessage (s.getD mref [])) then
              FieldVal.mOpt (some (emptyMessage (s.getD mref [])))
            else
              FieldVal.mOpt (some (ProtobufMutator.InitializeMessage fuel
                s dd (s.getD mref []) (emptyMessage (s.getD mref [])))))) ∧
        (∀ mref, depth = 0 →
          (d.getD i default).label = Label.required →
          (d.getD i default).ftype = FType.fMsg mref →
          m.getD i default = FieldVal.mOpt none →
          (ProtobufMutator.InitializeMessage fuel s depth d m).getD i
              default =
            FieldVal.mOpt (some (emptyMessage (s.getD mref []))))) ∧
    (ProtobufMutator.Mutate 3 [] exDescr true (emptyMessage exDescr) 64
        ⟨fun n => [0, 0, 25000, 1].getD n 0, 0⟩).1 =
      [FieldVal.sOpt (some (SVal.vInt32 0)),
       FieldVal.sOpt (some (SVal.vString [])), FieldVal.sRep []] := by
  constructor
  · intro fuel depth s d m hwf i him
    refine ⟨?_, ?_, ?_, ?_, ?_⟩
    · intro hreq hscal hslot
      have hid : i < d.length := by
        by_contra hc
        rw [List.getD_eq_default _ _ (by omega)] at hreq
        exact absurd hreq (by decide)
      cases depth with
      | zero =>
        simp only [ProtobufMutator.InitializeMessage]
        exact initStep_at fuel s none d hwf i hid m him _ _ hslot
          (fun m2 hi2 hs2 =>
            initField_at_required_scalar fuel s none d hwf i hreq hscal
              m2 hi2 hs2)
      | succ dd =>
        simp only [ProtobufMutator.InitializeMessage]
        exact initStep_at fuel s _ d hwf i hid m him _ _ hslot
          (fun m2 hi2 hs2 =>
            initField_at_required_scalar fuel s _ d hwf i hreq hscal
              m2 hi2 hs2)
    · intro dd mref sub hdep hft hlab hslot huninit
      subst hdep
      have hid : i < d.length := by
        by_contra hc
        rw [List.getD_eq_default _ _ (by omega)] at hft
        exact FType.noConfusion hft
      simp only [ProtobufMutator.InitializeMessage]
      exact initStep_at fuel s _ d hwf i hid m him _ _ hslot
        (fun m2 hi2 hs2 =>
          initField_at_msgOpt fuel s _ d i mref hft hlab m2 hi2 sub hs2
            huninit)
    · intro dd mref vs hdep hft hlab hslot
      subst hdep
      have hid : i < d.length := by
        by_contra hc
        rw [List.getD_eq_default _ _ (by omega)] at hft
        exact FType.noConfusion hft
      simp only [ProtobufMutator.InitializeMessage]
      exact initStep_at fuel s _ d hwf i hid m him _ _ hslot
        (fun m2 hi2 hs2 =>
          initField_at_msgRep fuel s _ d i mref hft hlab m2 hi2 vs hs2)
    · intro dd mref hdep hreq hft hslot
      subst hdep
      have hid : i < d.length := by
        by_contra hc
        rw [List.getD_eq_default _ _ (by omega)] at hft
        exact FType.noConfusion hft
      simp only [ProtobufMutator.InitializeMessage]
      exact initStep_at fuel s _ d hwf i hid m him _ _ hslot
        (fun m2 hi2 hs2 =>
          initField_at_required_msg fuel s _ d hwf i mref hreq hft
            m2 hi2 hs2)
    · intro mref hdep hreq hft hslot
      subst hdep
      have hid : i < d.length := by
        by_contra hc
        rw [List.getD_eq_default _ _ (by omega)] at hft
        exact FType.noConfusion hft
      simp only [ProtobufMutator.InitializeMessage]
      exact initStep_at fuel s none d hwf i hid m him _ _ hslot
        (fun m2 hi2 hs2 =>
          initField_at_required_msg fuel s none d hwf i mref hreq hft
            m2 hi2 hs2)
  · rfl

/-- Schema `N {required M a}`: a required message-typed field, for the
repair witness. -/
def reqMsgDescr : MsgDescr := [⟨FType.fMsg 0, Label.required, none⟩]

/-- Schema table holding the inner message `M {required int32 x}` that
`reqMsgDescr` refers to. -/
def reqMsgSchema : Schema := [[⟨FType.fInt32, Label.required, none⟩]]

/-- C3 witness: the general part applied to the schema
`M {required int32 a; ...}` at field `a` of the empty message, to the
schema `N {required M a}` at its unset required message-typed field `a`
(a fresh default sub-message is installed and descended into, since the
inner `M {required int32 x}` default is itself not initialized), plus the
end-to-end example itself. -/
theorem initializeMessage_repairs_witness :
    (ProtobufMutator.InitializeMessage 3 [] 32 exDescr
        (emptyMessage exDescr)).getD 0 default =
      FieldVal.sOpt (some (defaultSVal (exDescr.getD 0 default).ftype)) ∧
    (ProtobufMutator.InitializeMessage 3 reqMsgSchema 32 reqMsgDescr
        [FieldVal.mOpt none]).getD 0 default =
      (if msgInitialized 3 reqMsgSchema (reqMsgSchema.getD 0 [])
          (emptyMessage (reqMsgSchema.getD 0 [])) then
        FieldVal.mOpt (some (emptyMessage (reqMsgSchema.getD 0 [])))
      else
        FieldVal.mOpt (some (ProtobufMutator.InitializeMessage 3
          reqMsgSchema 31 (reqMsgSchema.getD 0 [])
          (emptyMessage (reqMsgSchema.getD 0 []))))) ∧
    (ProtobufMutator.Mutate 3 [] exDescr true (emptyMessage exDescr) 64
        ⟨fun n => [0, 0, 25000, 1].getD n 0, 0⟩).1 =
      [FieldVal.sOpt (some (SVal.vInt32 0)),
       FieldVal.sOpt (some (SVal.vString [])), FieldVal.sRep []] :=
  ⟨(initializeMessage_repairs.1 3 32 [] exDescr (emptyMessage exDescr)
      (by decide) 0 (by decide)).1 (by decide) (by decide) (by rfl),
   (initializeMessage_repairs.1 3 32 reqMsgSchema reqMsgDescr
      [FieldVal.mOpt none] (by decide) 0 (by decide)).2.2.2.1 31 0 rfl
      (by rfl) (by rfl) (by rfl),
   initializeMessage_repairs.2⟩

/-! ## Mutation sampler offer policy (C6) -/

/-- Oneof well-formedness of the root descriptor and of every message
descriptor of the schema. -/
def schemaOneofWF (s : Schema) (d : MsgDescr) : Bool :=
  oneofFieldsOptional d && s.all oneofFieldsOptional

theorem schemaOneofWF_getD (s : Schema) (d : MsgDescr) (mref : Nat)
    (h : schemaOneofWF s d = true) :
    schemaOneofWF s (s.getD mref []) = true := by
  have hall : s.all oneofFieldsOptional = true :=
    (Bool.and_eq_true_iff.mp h).2
  rw [schemaOneofWF, hall, Bool.and_true]
  by_cases hm : mref < s.length
  · have hmem : s.getD mref [] ∈ s := by
      rw [List.getD_eq_getElem?_getD, List.getElem?_eq_getElem hm]
      exact List.getElem_mem _
    exact List.all_eq_true.mp hall _ hmem
  · rw [List.getD_eq_default _ _ (by omega)]
    rfl

theorem oneofMembers_oneof (d : MsgDescr) (g i : Nat)
    (h : i ∈ oneofMembers d g) : (d.getD i default).oneof = some g := by
  unfold oneofMembers at h
  have h2 := List.of_mem_filter h
  simpa using h2

theorem foldl_pred_preserve {σ β : Type} (f : σ → β → σ) (Inv : σ → Prop)
    (l : List β) (h : ∀ st b, b ∈ l → Inv st → Inv (f st b)) :
    ∀ st, Inv st → Inv (l.foldl f st) := by
  induction l with
  | nil => intro st hst; exact hst
  | cons b t ih =>
    intro st hst
    rw [List.foldl_cons]
    exact ih (fun st2 b2 hb2 => h st2 b2 (List.mem_cons_of_mem _ hb2)) _
      (h st b (List.mem_cons_self _ _) hst)

/-- Log invariant preservation through a reservoir offer. -/
theorem SampleState.Try_logInv (P : Nat × Candidate → Prop)
    (st : SampleState) (w : Nat) (c : Candidate)
    (hst : ∀ e ∈ st.log, P e) (hc : P (w, c)) :
    ∀ e ∈ (st.Try w c).log, P e := by
  intro e he
  have he2 : e ∈ st.log ++ [(w, c)] := by
    unfold SampleState.Try at he
    by_cases hw : w = 0
    · simpa [hw] using he
    · simpa [hw] using he
  rcases List.mem_append.mp he2 with h | h
  · exact hst e h
  · rw [List.mem_singleton.mp h]
    exact hc

theorem SampleState.rand_log (st : SampleState) (n : Nat) :
    ((st.rand n).2).log = st.log := rfl

/-- The Delete-suppression invariant: under keep-initialized, a `Delete`
offer never targets a required field. -/
def noReqDelete (e : Nat × Candidate) : Prop :=
  e.2.mutation = Mutation.Delete → e.2.site.fd.label ≠ Label.required

/-- The offers made for one field never include a `Delete` of a required
field when keep-initialized is on: the singular branch suppresses it
explicitly, repeated fields are never required, and oneof members are
optional in a well-formed schema. -/
theorem sampleOffers_noReqDelete (s : Schema) (aw dw : Nat) (d : MsgDescr)
    (path : List PathStep) (m : PMessage)
    (hwf : oneofFieldsOptional d = true) (st : SampleState) (i : Nat)
    (hst : ∀ e ∈ st.log, noReqDelete e) :
    ∀ e ∈ (sampleOffers s true aw dw d path m st i).log, noReqDelete e := by
  simp only [sampleOffers]
  cases hone : (d.getD i default).oneof with
  | some g =>
    simp only []
    by_cases hhead : (oneofMembers d g).head? = some i
    · rw [if_pos hhead]
      cases hsetm : setOneofMember d m g with
      | none =>
        simp only []
        apply SampleState.Try_logInv
        · intro e he
          rw [SampleState.rand_log] at he
          exact hst e he
        · exact fun hmut => Mutation.noConfusion hmut
      | some si =>
        simp only []
        have hsi : (d.getD si default).oneof = some g :=
          oneofMembers_oneof d g si (List.mem_of_find?_eq_some hsetm)
        have hsilab : (d.getD si default).label = Label.optional := by
          rcases oneofFieldsOptional_getD d si hwf with h | h
          · rw [hsi] at h
            exact Option.noConfusion h
          · exact h
        apply SampleState.Try_logInv
        · apply SampleState.Try_logInv
          · by_cases hm : ((!(d.getD si default).ftype.isMsg : Bool) = true)
            · rw [if_pos hm]
              apply SampleState.Try_logInv
              · apply SampleState.Try_logInv
                · intro e he
                  rw [SampleState.rand_log] at he
                  exact hst e he
                · exact fun hmut => Mutation.noConfusion hmut
              · exact fun hmut => Mutation.noConfusion hmut
            · rw [if_neg hm]
              apply SampleState.Try_logInv
              · intro e he
                rw [SampleState.rand_log] at he
                exact hst e he
              · exact fun hmut => Mutation.noConfusion hmut
          · intro _
            show (d.getD si default).label ≠ Label.required
            rw [hsilab]
            decide
        · exact fun hmut => Mutation.noConfusion hmut
    · rw [if_neg hhead]
      exact hst
  | none =>
    simp only []
    by_cases hlab : (d.getD i default).label = Label.repeated
    · rw [if_pos hlab]
      by_cases hsz : (m.getD i default).rsize ≠ 0
      · rw [if_pos hsz]
        apply SampleState.Try_logInv
        · apply SampleState.Try_logInv
          · by_cases hm : ((!(d.getD i default).ftype.isMsg : Bool) = true)
            · rw [if_pos hm]
              apply SampleState.Try_logInv
              · intro e he
                rw [SampleState.rand_log] at he
                have hTry := SampleState.Try_logInv noReqDelete
                  ((st.rand ((m.getD i default).rsize + 1)).2) aw
                  ⟨⟨path, i, d.getD i default,
                    some (st.rand ((m.getD i default).rsize + 1)).1⟩, .Add⟩
                  (fun e2 he2 => by
                    rw [SampleState.rand_log] at he2
                    exact hst e2 he2)
                  (fun hmut => Mutation.noConfusion hmut)
                exact hTry e he
              · exact fun hmut => Mutation.noConfusion hmut
            · rw [if_neg hm]
              intro e he
              rw [SampleState.rand_log] at he
              have hTry := SampleState.Try_logInv noReqDelete
                ((st.rand ((m.getD i default).rsize + 1)).2) aw
                ⟨⟨path, i, d.getD i default,
                  some (st.rand ((m.getD i default).rsize + 1)).1⟩, .Add⟩
                (fun e2 he2 => by
                  rw [SampleState.rand_log] at he2
                  exact hst e2 he2)
                (fun hmut => Mutation.noConfusion hmut)
              exact hTry e he
          · intro _
            show (d.getD i default).label ≠ Label.required
            rw [hlab]
            decide
        · exact fun hmut => Mutation.noConfusion hmut
      · rw [if_neg hsz]
        apply SampleState.Try_logInv
        · intro e he
          rw [SampleState.rand_log] at he
          exact hst e he
        · exact fun hmut => Mutation.noConfusion hmut
    · rw [if_neg hlab]
      by_cases hset : ((m.getD i default).isSet = true)
      · rw [if_pos hset]
        apply SampleState.Try_logInv
        · by_cases hcond : (d.getD i default).label ≠ Label.required ∨
              (true : Bool) = false
          · rw [if_pos hcond]
            apply SampleState.Try_logInv
            · by_cases hm :
                  ((!(d.getD i default).ftype.isMsg : Bool) = true)
              · rw [if_pos hm]
                apply SampleState.Try_logInv
                · exact hst
                · exact fun hmut => Mutation.noConfusion hmut
              · rw [if_neg hm]
                exact hst
            · intro _
              show (d.getD i default).label ≠ Label.required
              exact hcond.elim (fun h => h)
                (fun h => Bool.noConfusion h)
          · rw [if_neg hcond]
            by_cases hm : ((!(d.getD i default).ftype.isMsg : Bool) = true)
            · rw [if_pos hm]
              apply SampleState.Try_logInv
              · exact hst
              · exact fun hmut => Mutation.noConfusion hmut
            · rw [if_neg hm]
              exact hst
        · exact fun hmut => Mutation.noConfusion hmut
      · rw [if_neg hset]
        apply SampleState.Try_logInv
        · exact hst
        · exact fun hmut => Mutation.noConfusion hmut

/-- One full sampling step preserves the Delete-suppression invariant. -/
theorem sampleStep_noReqDelete (s : Schema) (aw dw : Nat)
    (rc : MsgDescr → List PathStep → PMessage → SampleState → SampleState)
    (d : MsgDescr) (path : List PathStep) (m : PMessage)
    (hwf : oneofFieldsOptional d = true)
    (hrc : ∀ mref p2 m2 st2, (∀ e ∈ st2.log, noReqDelete e) →
      ∀ e ∈ (rc (s.getD mref []) p2 m2 st2).log, noReqDelete e)
    (st : SampleState) (i : Nat)
    (hst : ∀ e ∈ st.log, noReqDelete e) :
    ∀ e ∈ (sampleStep s true aw dw rc d path m st i).log, noReqDelete e := by
  simp only [sampleStep]
  have hoff := sampleOffers_noReqDelete s aw dw d path m hwf st i hst
  cases hft : (d.getD i default).ftype with
  | fMsg mref =>
    simp only []
    by_cases hlab : (d.getD i default).label = Label.repeated
    · rw [if_pos hlab]
      exact foldl_pred_preserve _ (fun st2 => ∀ e ∈ st2.log, noReqDelete e)
        _ (fun (st2 : SampleState) (je : Nat × PMessage) _ hst2 =>
          hrc mref _ je.2 st2 hst2) _ hoff
    · rw [if_neg hlab]
      cases hsm : (m.getD i default).subMsg with
      | none => exact hoff
      | some sub => exact hrc mref _ sub _ hoff
  | fInt32 => exact hoff
  | fInt64 => exact hoff
  | fUInt32 => exact hoff
  | fUInt64 => exact hoff
  | fBool => exact hoff
  | fEnum e c => exact hoff
  | fString => exact hoff

/-- The whole sampler traversal preserves the Delete-suppression
invariant. -/
theorem sampleMsg_noReqDelete :
    ∀ (fuel : Nat) (s : Schema) (aw dw : Nat) (d : MsgDescr)
      (path : List PathStep) (m : PMessage) (st : SampleState),
      schemaOneofWF s d = true →
      (∀ e ∈ st.log, noReqDelete e) →
      ∀ e ∈ (sampleMsg fuel s true aw dw d path m st).log, noReqDelete e := by
  intro fuel
  induction fuel with
  | zero => intro s aw dw d path m st _ hst; exact hst
  | succ n ih =>
    intro s aw dw d path m st hwf hst
    simp only [sampleMsg]
    exact foldl_pred_preserve _ (fun st2 => ∀ e ∈ st2.log, noReqDelete e) _
      (fun st2 i _ hst2 =>
        sampleStep_noReqDelete s aw dw _ d path m
          (Bool.and_eq_true_iff.mp hwf).1
          (fun mref p2 m2 st3 hst3 =>
            ih s aw dw (s.getD mref []) p2 m2 st3
              (schemaOneofWF_getD s d mref hwf) hst3)
          st2 i hst2)
      st hst

/-- The log of the sampler state only ever grows. -/
def logExtends (st st2 : SampleState) : Prop :=
  ∃ t, st2.log = st.log ++ t

theorem logExtends_refl (st : SampleState) : logExtends st st :=
  ⟨[], by simp⟩

theorem logExtends_trans {st1 st2 st3 : SampleState}
    (h1 : logExtends st1 st2) (h2 : logExtends st2 st3) :
    logExtends st1 st3 := by
  obtain ⟨t1, h1⟩ := h1
  obtain ⟨t2, h2⟩ := h2
  exact ⟨t1 ++ t2, by rw [h2, h1, List.append_assoc]⟩

theorem logExtends_mem {st st2 : SampleState} (e : Nat × Candidate)
    (he : e ∈ st.log) (h : logExtends st st2) : e ∈ st2.log := by
  obtain ⟨t, ht⟩ := h
  rw [ht]
  exact List.mem_append_left _ he

theorem Try_logExtends (st : SampleState) (w : Nat) (c : Candidate) :
    logExtends st (st.Try w c) := by
  unfold SampleState.Try
  by_cases hw : w = 0
  · exact ⟨[(w, c)], by simp [hw]⟩
  · exact ⟨[(w, c)], by simp [hw]⟩

theorem rand_logExtends (st : SampleState) (n : Nat) :
    logExtends st (st.rand n).2 := ⟨[], by simp [SampleState.rand_log]⟩

theorem foldl_logExtends {β : Type} (f : SampleState → β → SampleState)
    (l : List β) (h : ∀ st b, b ∈ l → logExtends st (f st b)) :
    ∀ st, logExtends st (l.foldl f st) := by
  induction l with
  | nil => intro st; exact logExtends_refl st
  | cons b t ih =>
    intro st
    rw [List.foldl_cons]
    exact logExtends_trans (h st b (List.mem_cons_self _ _))
      (ih (fun st2 b2 hb2 => h st2 b2 (List.mem_cons_of_mem _ hb2)) _)

theorem logExtends_Try {st1 st2 : SampleState} (h : logExtends st1 st2)
    (w : Nat) (c : Candidate) : logExtends st1 (st2.Try w c) :=
  logExtends_trans h (Try_logExtends st2 w c)

/-- The offers for one field only append to the log. -/
theorem sampleOffers_logExtends (s : Schema) (ki : Bool) (aw dw : Nat)
    (d : MsgDescr) (path : List PathStep) (m : PMessage)
    (st : SampleState) (i : Nat) :
    logExtends st (sampleOffers s ki aw dw d path m st i) := by
  simp only [sampleOffers]
  cases hone : (d.getD i default).oneof with
  | some g =>
    simp only []
    by_cases hhead : (oneofMembers d g).head? = some i
    · rw [if_pos hhead]
      cases hsetm : setOneofMember d m g with
      | none =>
        simp only []
        exact logExtends_Try (rand_logExtends st _) _ _
      | some si =>
        simp only []
        apply logExtends_Try
        apply logExtends_Try
        by_cases hm : ((!(d.getD si default).ftype.isMsg : Bool) = true)
        · rw [if_pos hm]
          exact logExtends_Try (logExtends_Try (rand_logExtends st _) _ _)
            _ _
        · rw [if_neg hm]
          exact logExtends_Try (rand_logExtends st _) _ _
    · rw [if_neg hhead]
      exact logExtends_refl st
  | none =>
    simp only []
    by_cases hlab : (d.getD i default).label = Label.repeated
    · rw [if_pos hlab]
      by_cases hsz : (m.getD i default).rsize ≠ 0
      · rw [if_pos hsz]
        apply logExtends_Try
        apply logExtends_Try
        by_cases hm : ((!(d.getD i default).ftype.isMsg : Bool) = true)
        · rw [if_pos hm]
          apply logExtends_Try
          exact logExtends_trans
            (logExtends_Try (rand_logExtends st _) _ _)
            (rand_logExtends _ _)
        · rw [if_neg hm]
          exact logExtends_trans
            (logExtends_Try (rand_logExtends st _) _ _)
            (rand_logExtends _ _)
      · rw [if_neg hsz]
        exact logExtends_Try (rand_logExtends st _) _ _
    · rw [if_neg hlab]
      by_cases hset : ((m.getD i default).isSet = true)
      · rw [if_pos hset]
        apply logExtends_Try
        have hfirst : logExtends st
            (if (!(d.getD i default).ftype.isMsg : Bool) = true then
              st.Try kMutateWeight
                ⟨⟨path, i, d.getD i default, none⟩, .Mutate⟩
            else st) := by
          by_cases hm : ((!(d.getD i default).ftype.isMsg : Bool) = true)
          · rw [if_pos hm]
            exact logExtends_Try (logExtends_refl st) _ _
          · rw [if_neg hm]
            exact logExtends_refl st
        by_cases hcond : (d.getD i default).label ≠ Label.required ∨
            ki = false
        · rw [if_pos hcond]
          exact logExtends_Try hfirst _ _
        · rw [if_neg hcond]
          exact hfirst
      · rw [if_neg hset]
        exact logExtends_Try (logExtends_refl st) _ _

/-- One sampling step only appends to the log, provided the recursive
calls do. -/
theorem sampleStep_logExtends (s : Schema) (ki : Bool) (aw dw : Nat)
    (rc : MsgDescr → List PathStep → PMessage → SampleState → SampleState)
    (d : MsgDescr) (path : List PathStep) (m : PMessage)
    (hrc : ∀ d2 p2 m2 st2, logExtends st2 (rc d2 p2 m2 st2))
    (st : SampleState) (i : Nat) :
    logExtends st (sampleStep s ki aw dw rc d path m st i) := by
  simp only [sampleStep]
  have hoff := sampleOffers_logExtends s ki aw dw d path m st i
  cases hft : (d.getD i default).ftype with
  | fMsg mref =>
    simp only []
    by_cases hlab : (d.getD i default).label = Label.repeated
    · rw [if_pos hlab]
      exact logExtends_trans hoff
        (foldl_logExtends _ _
          (fun st2 je _ => hrc _ _ _ st2) _)
    · rw [if_neg hlab]
      cases hsm : (m.getD i default).subMsg with
      | none => exact hoff
      | some sub => exact logExtends_trans hoff (hrc _ _ _ _)
  | fInt32 => exact hoff
  | fInt64 => exact hoff
  | fUInt32 => exact hoff
  | fUInt64 => exact hoff
  | fBool => exact hoff
  | fEnum e c => exact hoff
  | fString => exact hoff

/-- The whole traversal only appends to the log. -/
theorem sampleMsg_logExtends :
    ∀ (fuel : Nat) (s : Schema) (ki : Bool) (aw dw : Nat) (d : MsgDescr)
      (path : List PathStep) (m : PMessage) (st : SampleState),
      logExtends st (sampleMsg fuel s ki aw dw d path m st) := by
  intro fuel
  induction fuel with
  | zero => intro s ki aw dw d path m st; exact logExtends_refl st
  | succ n ih =>
    intro s ki aw dw d path m st
    simp only [sampleMsg]
    exact foldl_logExtends _ _
      (fun st2 i _ =>
        sampleStep_logExtends s ki aw dw _ d path m
          (fun d2 p2 m2 st3 => ih s ki aw dw d2 p2 m2 st3) st2 i) st

/-- Membership in a fold's log from membership after the step at one
element, when every step only appends. -/
theorem foldl_log_mem {β : Type} (f : SampleState → β → SampleState)
    (l : List β) (e : Nat × Candidate) (i : β)
    (hext : ∀ st b, b ∈ l → logExtends st (f st b))
    (hstep : ∀ st, e ∈ (f st i).log) (hi : i ∈ l) :
    ∀ st, e ∈ (l.foldl f st).log := by
  induction l with
  | nil => cases hi
  | cons b t ih =>
    intro st
    rw [List.foldl_cons]
    by_cases hbi : b = i
    · subst hbi
      exact logExtends_mem e (hstep st)
        (foldl_logExtends _ _
          (fun st2 b2 hb2 => hext st2 b2 (List.mem_cons_of_mem _ hb2)) _)
    · have hit : i ∈ t := by
        rcases List.mem_cons.mp hi with h | h
        · exact absurd h.symm hbi
        · exact h
      exact ih (fun st2 b2 hb2 => hext st2 b2 (List.mem_cons_of_mem _ hb2))
        hit _

theorem Try_log_mem_self (st : SampleState) (w : Nat) (c : Candidate) :
    (w, c) ∈ (st.Try w c).log := by
  unfold SampleState.Try
  by_cases hw : w = 0
  · simp [hw]
  · simp [hw]

/-- With keep-initialized off, the offers for a set singular non-oneof
field always include `Delete` with the delete weight. -/
theorem sampleOffers_offers_delete (s : Schema) (aw dw : Nat)
    (d : MsgDescr) (path : List PathStep) (m : PMessage)
    (st : SampleState) (i : Nat)
    (hone : (d.getD i default).oneof = none)
    (hlab : (d.getD i default).label ≠ Label.repeated)
    (hset : (m.getD i default).isSet = true) :
    (dw, ⟨⟨path, i, d.getD i default, none⟩, Mutation.Delete⟩) ∈
      (sampleOffers s false aw dw d path m st i).log := by
  simp only [sampleOffers, hone]
  rw [if_neg hlab, if_pos hset]
  rw [if_pos (show (d.getD i default).label ≠ Label.required ∨ True from
    Or.inr trivial)]
  exact logExtends_mem _ (Try_log_mem_self _ _ _) (Try_logExtends _ _ _)

/-- With keep-initialized off, one sampling step at a set singular
non-oneof field logs a `Delete` offer for it. -/
theorem sampleStep_offers_delete (s : Schema) (aw dw : Nat)
    (rc : MsgDescr → List PathStep → PMessage → SampleState → SampleState)
    (d : MsgDescr) (path : List PathStep) (m : PMessage)
    (hrcext : ∀ d2 p2 m2 st2, logExtends st2 (rc d2 p2 m2 st2))
    (st : SampleState) (i : Nat)
    (hone : (d.getD i default).oneof = none)
    (hlab : (d.getD i default).label ≠ Label.repeated)
    (hset : (m.getD i default).isSet = true) :
    (dw, ⟨⟨path, i, d.getD i default, none⟩, Mutation.Delete⟩) ∈
      (sampleStep s false aw dw rc d path m st i).log := by
  simp only [sampleStep]
  have hoff := sampleOffers_offers_delete s aw dw d path m st i hone hlab
    hset
  cases hft : (d.getD i default).ftype with
  | fMsg mref =>
    simp only []
    rw [if_neg hlab]
    cases hsm : (m.getD i default).subMsg with
    | none => exact hoff
    | some sub => exact logExtends_mem _ hoff (hrcext _ _ _ _)
  | fInt32 => exact hoff
  | fInt64 => exact hoff
  | fUInt32 => exact hoff
  | fUInt64 => exact hoff
  | fBool => exact hoff
  | fEnum e c => exact hoff
  | fString => exact hoff

/-- Descent of the sampler traversal along a path: the message and its
descriptor reached when every step goes through a message-typed field that
is present (repeated element or set singular). -/
def samplerReach : Schema → MsgDescr → PMessage → List PathStep →
    Option (MsgDescr × PMessage)
  | _, d, m, [] => some (d, m)
  | s, d, m, stp :: p =>
    let fd := d.getD stp.field default
    let fv := m.getD stp.field default
    match fd.ftype with
    | FType.fMsg mref =>
      let d2 := s.getD mref []
      match stp.elem with
      | some j =>
        if fd.label = Label.repeated then
          match fv.mElems[j]? with
          | some sub => samplerReach s d2 sub p
          | none => none
        else none
      | none =>
        if fd.label = Label.repeated then none
        else
          match fv.subMsg with
          | some sub => samplerReach s d2 sub p
          | none => none
    | _ => none

/-- With keep-initialized off, the traversal logs a `Delete` offer, with
the delete weight, for every set singular non-oneof field of every message
the traversal reaches, provided the depth bound exceeds the path length. -/
theorem sampleMsg_offers_delete :
    ∀ (p : List PathStep) (fuel : Nat) (s : Schema) (aw dw : Nat)
      (d : MsgDescr) (path : List PathStep) (m : PMessage)
      (st : SampleState) (d2 : MsgDescr) (m2 : PMessage) (i : Nat),
      p.length < fuel →
      samplerReach s d m p = some (d2, m2) →
      i < d2.length →
      (d2.getD i default).oneof = none →
      (d2.getD i default).label ≠ Label.repeated →
      (m2.getD i default).isSet = true →
      (dw, ⟨⟨path ++ p, i, d2.getD i default, none⟩, Mutation.Delete⟩) ∈
        (sampleMsg fuel s false aw dw d path m st).log := by
  intro p
  induction p with
  | nil =>
    intro fuel s aw dw d path m st d2 m2 i hfuel hreach hi hone hlab hset
    cases fuel with
    | zero => omega
    | succ n =>
      obtain ⟨hd2, hm2⟩ : d = d2 ∧ m = m2 := by
        simp only [samplerReach] at hreach
        simpa using hreach
      subst hd2
      subst hm2
      simp only [sampleMsg]
      rw [show path ++ ([] : List PathStep) = path from by simp]
      exact foldl_log_mem _ _ _ i
        (fun st2 b _ =>
          sampleStep_logExtends s false aw dw _ d path m
            (fun d3 p3 m3 st3 => sampleMsg_logExtends n s false aw dw
              d3 p3 m3 st3) st2 b)
        (fun st2 =>
          sampleStep_offers_delete s aw dw _ d path m
            (fun d3 p3 m3 st3 => sampleMsg_logExtends n s false aw dw
              d3 p3 m3 st3) st2 i hone hlab hset)
        (List.mem_range.mpr hi) st
  | cons stp p ih =>
    intro fuel s aw dw d path m st d2 m2 i hfuel hreach hi hone hlab hset
    cases fuel with
    | zero => omega
    | succ n =>
      simp only [samplerReach] at hreach
      cases hft : (d.getD stp.field default).ftype with
      | fMsg mref => ?_
      | fInt32 => rw [hft] at hreach; exact Option.noConfusion hreach
      | fInt64 => rw [hft] at hreach; exact Option.noConfusion hreach
      | fUInt32 => rw [hft] at hreach; exact Option.noConfusion hreach
      | fUInt64 => rw [hft] at hreach; exact Option.noConfusion hreach
      | fBool => rw [hft] at hreach; exact Option.noConfusion hreach
      | fEnum e c => rw [hft] at hreach; exact Option.noConfusion hreach
      | fString => rw [hft] at hreach; exact Option.noConfusion hreach
      rw [hft] at hreach
      have hfield : stp.field < d.length := by
        by_contra hc
        rw [List.getD_eq_default _ _ (by omega)] at hft
        exact FType.noConfusion hft
      simp only [sampleMsg]
      -- the step at stp.field puts the entry in the log
      apply foldl_log_mem _ _ _ stp.field
        (fun st2 b _ =>
          sampleStep_logExtends s false aw dw _ d path m
            (fun d3 p3 m3 st3 => sampleMsg_logExtends n s false aw dw
              d3 p3 m3 st3) st2 b)
        ?hstep (List.mem_range.mpr hfield)
      intro st2
      simp only [sampleStep, hft]
      cases helem : stp.elem with
      | some j =>
        rw [helem] at hreach
        have h0 : (if (d.getD stp.field default).label = Label.repeated
            then (match (m.getD stp.field default).mElems[j]? with
              | some sub => samplerReach s (s.getD mref []) sub p
              | none => none)
            else none) = some (d2, m2) := hreach
        by_cases hlabf : (d.getD stp.field default).label = Label.repeated
        · rw [if_pos hlabf]
          rw [if_pos hlabf] at h0
          cases hsub : (m.getD stp.field default).mElems[j]? with
          | none =>
            rw [hsub] at h0
            exact Option.noConfusion (show (none : Option (MsgDescr ×
              PMessage)) = some (d2, m2) from h0)
          | some sub =>
            rw [hsub] at h0
            have hreach3 : samplerReach s (s.getD mref []) sub p =
                some (d2, m2) := h0
            have hje : (j, sub) ∈ (m.getD stp.field default).mElems.enum :=
              List.mem_enum_iff_getElem?.mpr hsub
            have hpath : path ++ stp :: p =
                (path ++ [⟨stp.field, some j⟩]) ++ p := by
              have hstp : (⟨stp.field, some j⟩ : PathStep) = stp := by
                cases stp with
                | mk f e =>
                  simp only at helem
                  rw [helem]
              rw [hstp, List.append_cons]
            rw [hpath]
            exact foldl_log_mem
              (fun st3 (je : Nat × PMessage) =>
                sampleMsg n s false aw dw (s.getD mref [])
                  (path ++ [⟨stp.field, some je.1⟩]) je.2 st3)
              _ _ (j, sub)
              (fun st3 je _ => sampleMsg_logExtends n s false aw dw _ _
                je.2 st3)
              (fun st3 => ih n s aw dw (s.getD mref [])
                (path ++ [⟨stp.field, some j⟩]) sub st3 d2 m2 i
                (by simpa using Nat.lt_of_succ_lt_succ hfuel) hreach3 hi
                hone hlab hset)
              hje _
        · rw [if_neg hlabf] at h0
          exact Option.noConfusion (show (none : Option (MsgDescr ×
            PMessage)) = some (d2, m2) from h0)
      | none =>
        rw [helem] at hreach
        have h0 : (if (d.getD stp.field default).label = Label.repeated
            then none
            else (match (m.getD stp.field default).subMsg with
              | some sub => samplerReach s (s.getD mref []) sub p
              | none => none)) = some (d2, m2) := hreach
        by_cases hlabf : (d.getD stp.field default).label = Label.repeated
        · rw [if_pos hlabf] at h0
          exact Option.noConfusion (show (none : Option (MsgDescr ×
            PMessage)) = some (d2, m2) from h0)
        · rw [if_neg hlabf]
          rw [if_neg hlabf] at h0
          cases hsub : (m.getD stp.field default).subMsg with
          | none =>
            rw [hsub] at h0
            exact Option.noConfusion (show (none : Option (MsgDescr ×
              PMessage)) = some (d2, m2) from h0)
          | some sub =>
            rw [hsub] at h0
            have hreach3 : samplerReach s (s.getD mref []) sub p =
                some (d2, m2) := h0
            have hpath : path ++ stp :: p =
                (path ++ [⟨stp.field, none⟩]) ++ p := by
              have hstp : (⟨stp.field, none⟩ : PathStep) = stp := by
                cases stp with
                | mk f e =>
                  simp only at helem
                  rw [helem]
              rw [hstp, List.append_cons]
            rw [hpath]
            exact ih n s aw dw (s.getD mref [])
              (path ++ [⟨stp.field, none⟩]) sub _ d2 m2 i
              (by simpa using Nat.lt_of_succ_lt_succ hfuel) hreach3 hi
              hone hlab hset

/-- C6: with keep-initialized on, the mutation sampler never offers a
`Delete` candidate whose field is required (set required singular fields
included — requiredness alone rules a `Delete` offer out, since repeated
fields and oneof members of a well-formed schema are never required); with
keep-initialized off, a `Delete` candidate with the delete weight is
offered for every set singular non-oneof field of every message the
traversal reaches. -/
theorem sampler_delete_policy :
    (∀ (fuel : Nat) (s : Schema) (aw dw : Nat) (d : MsgDescr)
        (m : PMessage) (r : RNG),
      schemaOneofWF s d = true →
      ∀ e ∈ (sampleMsg fuel s true aw dw d [] m ⟨0, none, r, []⟩).log,
        e.2.mutation = Mutation.Delete →
        e.2.site.fd.label ≠ Label.required) ∧
    (∀ (p : List PathStep) (fuel : Nat) (s : Schema) (aw dw : Nat)
        (d : MsgDescr) (m : PMessage) (r : RNG) (d2 : MsgDescr)
        (m2 : PMessage) (i : Nat),
      p.length < fuel →
      samplerReach s d m p = some (d2, m2) →
      i < d2.length →
      (d2.getD i default).oneof = none →
      (d2.getD i default).label ≠ Label.repeated →
      (m2.getD i default).isSet = true →
      (dw, ⟨⟨p, i, d2.getD i default, none⟩, Mutation.Delete⟩) ∈
        (sampleMsg fuel s false aw dw d [] m ⟨0, none, r, []⟩).log) := by
  constructor
  · intro fuel s aw dw d m r hwf e he hdel
    exact sampleMsg_noReqDelete fuel s aw dw d [] m _ hwf
      (fun e2 he2 => absurd he2 (List.not_mem_nil _)) e he hdel
  · intro p fuel s aw dw d m r d2 m2 i hfuel hreach hi hone hlab hset
    have h := sampleMsg_offers_delete p fuel s aw dw d [] m
      ⟨0, none, r, []⟩ d2 m2 i hfuel hreach hi hone hlab hset
    simpa using h

/-- C6 witness: on `M {a = 1; c = [10, 20]}`, with keep-initialized on no
`Delete` offer targets the required field, and with keep-initialized off a
`Delete` offer for the set required singular field `a` is in the log. -/
theorem sampler_delete_policy_witness :
    (∀ e ∈ (sampleMsg 2 [] true 25000 75000 exDescr [] exM1
        ⟨0, none, ⟨fun _ => 0, 0⟩, []⟩).log,
      e.2.mutation = Mutation.Delete →
      e.2.site.fd.label ≠ Label.required) ∧
    (75000, ⟨⟨[], 0, exDescr.getD 0 default, none⟩, Mutation.Delete⟩) ∈
      (sampleMsg 1 [] false 25000 75000 exDescr [] exM1
        ⟨0, none, ⟨fun _ => 0, 0⟩, []⟩).log :=
  ⟨sampler_delete_policy.1 2 [] 25000 75000 exDescr exM1 ⟨fun _ => 0, 0⟩
     (by decide),
   sampler_delete_policy.2 [] 1 [] 25000 75000 exDescr exM1
     ⟨fun _ => 0, 0⟩ exDescr exM1 0 (by decide) (by rfl) (by decide)
     (by decide) (by decide) (by rfl)⟩

end ProtyMut
